import Mathlib

/-!
Verification of the AMAV pipeline (ageing-amav repository).

Shallow embedding of the three source scripts:
* `build_perstudy_linearslope` (identical in both aggregation scripts):
  per-study piecewise-constant slopes on a shared year axis;
* `build_summary_mav_amav` (script `build_amav_from_supplemental_Table_1.py`):
  MAV / AMAV / AMAV-POS aggregation; array writes are modelled with an
  explicit bounds check (`Option`-valued result), mirroring numpy's
  `IndexError` on an out-of-range scalar assignment;
* `build_summary_mav_amav_figs` (script `make_supplemental_figures.py`):
  the near-duplicate aggregator that clamps loop bounds with
  `min(last_e + 1, n - 1)` and tests negativity with `< 0` (no tolerance);
* `choose_model_for_disease` (script `LINEAR_vs_EXPONENTIAL.py`):
  the linear-vs-exponential decision rule.  The external OLS library
  (statsmodels) is abstracted as an oracle record `OlsFit`; the guards,
  control flow and the decision rule themselves are translated from the
  source.

Missing values (numpy `NaN`) are modelled as `Option`; floats as `ℚ`.
-/

namespace Amav

/-- One year's and one study's possibly-missing numeric value. -/
abbrev Val := Option ℚ

/-! ### Slope Builder (`build_perstudy_linearslope`, identical in both scripts) -/

/-- Slope of the segment between two observations `(y0, v0)` and `(y1, v1)`:
`(v1 - v0) / (y1 - y0)`. -/
def slopeVal (p q : ℤ × ℚ) : ℚ := (q.2 - p.2) / ((q.1 : ℚ) - (p.1 : ℚ))

/-- One iteration of the slope-assignment loop: for a consecutive observation
pair `pp = ((y0, v0), (y1, v1))`, if `y1 > y0` assign the segment slope to
every axis year `y` with `y0 < y ≤ y1`; otherwise leave the array unchanged
(duplicate-year pairs contribute nothing). -/
def slopeStep (years : List ℤ) (arr : List Val) (pp : (ℤ × ℚ) × (ℤ × ℚ)) : List Val :=
  if pp.1.1 < pp.2.1 then
    (years.zip arr).map (fun q => if pp.1.1 < q.1 ∧ q.1 ≤ pp.2.1 then some (slopeVal pp.1 pp.2) else q.2)
  else arr

/-- The observed `(year, value)` pairs of one study column, in axis order
(the `obs_y`/`obs_v` arrays of the source). -/
def obsOf (years : List ℤ) (col : List Val) : List (ℤ × ℚ) :=
  (years.zip col).filterMap (fun p => p.2.map (fun v => (p.1, v)))

/-- Per-study piecewise-constant slope series (`build_perstudy_linearslope`):
start from an all-undefined array and run the assignment loop over all
consecutive observation pairs. -/
def build_perstudy_linearslope (years : List ℤ) (col : List Val) : List Val :=
  ((obsOf years col).zip (obsOf years col).tail).foldl (slopeStep years)
    (List.replicate years.length none)

/-! ### MAV (`np.nanmean` per year row / manual masked mean) -/

/-- Mean of the defined values of one year row across studies; `none` when no
study has a defined slope (the `np.nanmean` / masked-mean of the source). -/
def mavRow (row : List Val) : Val :=
  let vals := row.filterMap id
  if vals.isEmpty then none else some (vals.sum / (vals.length : ℚ))

/-! ### Contiguous runs (`runs_true`) -/

/-- Loop body of `runs_true`: `ks` are the remaining indices where the mask is
true, `(start, prev)` the run currently being grown, `runs` the finished runs. -/
def runsAux : List ℕ → ℕ → ℕ → List (ℕ × ℕ) → List (ℕ × ℕ)
  | [], start, prev, runs => runs ++ [(start, prev)]
  | k :: ks, start, prev, runs =>
    if k = prev + 1 then runsAux ks start k runs
    else runsAux ks k k (runs ++ [(start, prev)])

/-- `runs_true`: maximal `(start, end)` intervals of consecutive indices where
the mask is true. -/
def runs_true (mask : List Bool) : List (ℕ × ℕ) :=
  match (List.range mask.length).filter (fun i => mask.getD i false) with
  | [] => []
  | i0 :: rest => runsAux rest i0 i0 []

/-! ### AMAV / AMAV-POS integration loops -/

/-- Contribution of loop position `t` taken from MAV at `t - 1` (the
`MODE='prev'` convention); an undefined MAV contributes `0`, a defined value
`v` contributes `v`, or `max v 0` when negative MAV is excluded. -/
def prevContrib (includeNeg : Bool) (mav : List Val) (t : ℕ) : ℚ :=
  match mav.getD (t - 1) none with
  | some v => if includeNeg then v else max v 0
  | none => 0

/-- AMAV integration loop of `build_amav_from_supplemental_Table_1.py`, with a
bounds check on every write (`none` models numpy's `IndexError`). -/
def amavGo (mav : List Val) : ℚ → List Val → List ℕ → Option (List Val)
  | _, arr, [] => some arr
  | acc, arr, i :: is =>
    let acc' := match mav.getD (i - 1) none with
      | some v => acc + v
      | none => acc
    if i < arr.length then amavGo mav acc' (arr.set i (some acc')) is
    else none

/-- Total AMAV integration loop (used by `make_supplemental_figures.py`, whose
loop indices are clamped in range; `List.set` out of range is a no-op). -/
def amavGoF (mav : List Val) : ℚ → List Val → List ℕ → List Val
  | _, arr, [] => arr
  | acc, arr, i :: is =>
    let acc' := match mav.getD (i - 1) none with
      | some v => acc + v
      | none => acc
    amavGoF mav acc' (arr.set i (some acc')) is

/-- AMAV-POS integration loop of `build_amav_from_supplemental_Table_1.py`
(bounds-checked writes; positions whose previous-year MAV is undefined are
skipped without a write). -/
def posGo (includeNeg : Bool) (mav : List Val) : ℚ → List Val → List ℕ → Option (List Val)
  | _, arr, [] => some arr
  | run, arr, i :: is =>
    match mav.getD (i - 1) none with
    | some v =>
      let contrib := if includeNeg then v else max v 0
      if i < arr.length then
        posGo includeNeg mav (run + contrib) (arr.set i (some (run + contrib))) is
      else none
    | none => posGo includeNeg mav run arr is

/-- Total AMAV-POS integration loop (figures script; indices clamped in range). -/
def posGoF (includeNeg : Bool) (mav : List Val) : ℚ → List Val → List ℕ → List Val
  | _, arr, [] => arr
  | run, arr, i :: is =>
    match mav.getD (i - 1) none with
    | some v =>
      let contrib := if includeNeg then v else max v 0
      posGoF includeNeg mav (run + contrib) (arr.set i (some (run + contrib))) is
    | none => posGoF includeNeg mav run arr is

/-! ### Valley detection (`np.nanargmin`) -/

/-- Minimum of the defined values of a list, `none` when all entries are
undefined. -/
def minDef : List Val → Val
  | [] => none
  | none :: rest => minDef rest
  | some v :: rest =>
    match minDef rest with
    | none => some v
    | some w => some (min v w)

/-- `np.nanargmin`: index of the leftmost minimal defined value (first
occurrence wins ties; result unspecified on a list with no defined entry,
which the source guards against). -/
def nanargmin : List Val → ℕ
  | [] => 0
  | none :: rest => nanargmin rest + 1
  | some v :: rest =>
    match minDef rest with
    | some w => if w < v then nanargmin rest + 1 else 0
    | none => 0

/-- The AMAV slice `amav[lo : hi + 1]` inspected for negative values. -/
def windowOf (amav : List Val) (lo hi : ℕ) : List Val :=
  (amav.drop lo).take (hi + 1 - lo)

/-- The negativity test on the AMAV window: some defined value is below
`-eps` (the source also checks that the window has a finite entry, which the
second conjunct implies; both conjuncts are kept). -/
def hasNegWindow (eps : ℚ) (w : List Val) : Bool :=
  (w.any (fun o => o.isSome)) &&
    (w.any (fun o => match o with | some v => decide (v < -eps) | none => false))

/-- `valley = lo + np.nanargmin(window)`. -/
def valleyOf (w : List Val) (lo : ℕ) : ℕ := lo + nanargmin w

/-- `EPS = 1e-12` of `build_amav_from_supplemental_Table_1.py`. -/
def EPS : ℚ := 1 / 10 ^ 12

/-- Output of `build_summary_mav_amav`: the MAV, AMAV and (when produced)
AMAV-POS columns of the summary frame. -/
structure Summary where
  mav : List Val
  amav : List Val
  amavPos : Option (List Val)
deriving DecidableEq

/-- `build_summary_mav_amav` of `build_amav_from_supplemental_Table_1.py`.
`M` is the slope matrix as a list of year rows (one entry per study);
`includeNeg` is the `INCLUDE_NEG` module switch (source default `True`), the
accumulation mode is the source's fixed `MODE = 'prev'`.  Returns `none` when
an array write is out of bounds (numpy `IndexError`). -/
def build_summary_mav_amav (includeNeg : Bool) (M : List (List Val)) : Option Summary :=
  let mav := M.map mavRow
  match (runs_true (mav.map Option.isSome)).getLast? with
  | none => some ⟨mav, List.replicate M.length none, none⟩
  | some (s, e) =>
    match amavGo mav 0 (List.replicate M.length none) (List.range' (s + 1) (e + 1 - s)) with
    | none => none
    | some amav =>
      if hasNegWindow EPS (windowOf amav (s + 1) (e + 1)) then
        let si := max (valleyOf (windowOf amav (s + 1) (e + 1)) (s + 1) + 1) (s + 1)
        match posGo includeNeg mav 0 (List.replicate M.length none)
            (List.range' si (e + 1 + 1 - si)) with
        | none => none
        | some pos => some ⟨mav, amav, some pos⟩
      else some ⟨mav, amav, none⟩

/-- `build_summary_mav_amav` of `make_supplemental_figures.py`: loop upper
bounds clamped by `min (last_e + 1) (n - 1)`, negativity tested with `< 0`
(no tolerance), negative MAV always included in the positive limb. -/
def build_summary_mav_amav_figs (M : List (List Val)) : Summary :=
  let mav := M.map mavRow
  let n := M.length
  match (runs_true (mav.map Option.isSome)).getLast? with
  | none => ⟨mav, List.replicate n none, none⟩
  | some (s, e) =>
    let amav := amavGoF mav 0 (List.replicate n none)
      (List.range' (s + 1) (min (e + 1) (n - 1) + 1 - (s + 1)))
    if hasNegWindow 0 (windowOf amav (s + 1) (e + 1)) then
      let si := max (valleyOf (windowOf amav (s + 1) (e + 1)) (s + 1) + 1) (s + 1)
      let pos := posGoF true mav 0 (List.replicate n none)
        (List.range' si (min (e + 1) (n - 1) + 1 - si))
      ⟨mav, amav, some pos⟩
    else ⟨mav, amav, none⟩

/-! ### Model Selector (`LINEAR_vs_EXPONENTIAL.py`) -/

/-- `MIN_POINTS_LINEAR = 2`. -/
def MIN_POINTS_LINEAR : ℕ := 2
/-- `MIN_POINTS_EXP = 3`. -/
def MIN_POINTS_EXP : ℕ := 3
/-- `MIN_POINTS_CV = 5`. -/
def MIN_POINTS_CV : ℕ := 5
/-- `AIC_MARGIN = 4.0`. -/
def AIC_MARGIN : ℚ := 4
/-- The source constant `RMSE_RATIO = 0.98` (renamed here). -/
def RMSE_FACTOR : ℚ := 98 / 100

/-- Oracle for the external OLS fits (statsmodels): the AIC/BIC of each fitted
model and the leave-one-out RMSE values computed from the refits.  Only the
guards and the decision rule live in the repository's source and are embedded
below. -/
structure OlsFit where
  aicLin : List ℚ → List ℚ → ℚ
  bicLin : List ℚ → List ℚ → ℚ
  aicExp : List ℚ → List ℚ → ℚ
  bicExp : List ℚ → List ℚ → ℚ
  cvLin : List ℚ → List ℚ → ℚ
  cvExp : List ℚ → List ℚ → ℚ

/-- The final decision label of `choose_model_for_disease`. -/
inductive ModelDecision
  | INSUFFICIENT_DATA
  | LINEAR_ONLY
  | LINEAR
  | EXPONENTIAL
deriving DecidableEq

/-- The per-disease record returned by `choose_model_for_disease` (the
`n_pos` field of the source always equals `n_all` and is omitted). -/
structure ModelRecord where
  n_all : ℕ
  model : ModelDecision
  aicLin : Option ℚ
  aicExp : Option ℚ
  bicLin : Option ℚ
  bicExp : Option ℚ
  rmseLin : Option ℚ
  rmseExp : Option ℚ
deriving DecidableEq

/-- Year centering `x - np.mean(x)`. -/
def center (xs : List ℚ) : List ℚ :=
  xs.map (fun v => v - xs.sum / (xs.length : ℚ))

/-- `loocv_rmse_linear`: `NaN` below `MIN_POINTS_CV` points, otherwise the
cross-validated RMSE of the linear refits (oracle value). -/
def loocv_rmse_linear (o : OlsFit) (x y : List ℚ) : Option ℚ :=
  if y.length < MIN_POINTS_CV then none else some (o.cvLin x y)

/-- `loocv_rmse_exponential`: `NaN` below `MIN_POINTS_CV` points or when some
value is non-positive. -/
def loocv_rmse_exponential (o : OlsFit) (x y : List ℚ) : Option ℚ :=
  if y.length < MIN_POINTS_CV ∨ y.any (fun v => decide (v ≤ 0)) then none
  else some (o.cvExp x y)

/-- `fit_exponential` raises `ValueError` when some value is non-positive
(modelled as `none`); otherwise it returns the oracle's AIC and BIC of the
log-linear fit. -/
def fit_exponential (o : OlsFit) (x y : List ℚ) : Option (ℚ × ℚ) :=
  if y.any (fun v => decide (v ≤ 0)) then none
  else some (o.aicExp x y, o.bicExp x y)

/-- `choose_model_for_disease`: guards on the usable point count, then the
AIC / LOOCV decision rule.  The ratio test `re / rl ≤ RMSE_FACTOR` is guarded
by `0 < rl` exactly as in the source (`math.inf ≤ 0.98` is false). -/
def choose_model_for_disease (o : OlsFit) (years vals : List ℚ) : ModelRecord :=
  let n_all := vals.length
  if n_all < MIN_POINTS_LINEAR then
    ⟨n_all, .INSUFFICIENT_DATA, none, none, none, none, none, none⟩
  else
    let x := center years
    if n_all < MIN_POINTS_EXP then
      ⟨n_all, .LINEAR_ONLY, some (o.aicLin x vals), none, some (o.bicLin x vals),
        none, none, none⟩
    else
      let aicL := o.aicLin x vals
      let bicL := o.bicLin x vals
      let rmseL := loocv_rmse_linear o x vals
      match fit_exponential o x vals with
      | none => ⟨n_all, .LINEAR, some aicL, none, some bicL, none, rmseL, none⟩
      | some (aicE, bicE) =>
        let rmseE := loocv_rmse_exponential o x vals
        let chosen :=
          match rmseL, rmseE with
          | some rl, some re =>
            if aicE - aicL ≤ -AIC_MARGIN ∧ 0 < rl ∧ re / rl ≤ RMSE_FACTOR then
              ModelDecision.EXPONENTIAL
            else ModelDecision.LINEAR
          | _, _ =>
            if aicE - aicL ≤ -AIC_MARGIN then ModelDecision.EXPONENTIAL
            else ModelDecision.LINEAR
        ⟨n_all, chosen, some aicL, some aicE, some bicL, some bicE, rmseL, rmseE⟩

/-- Partial sum of loop contributions over positions `lo, lo+1, …, lo+c-1`. -/
def psum (b : Bool) (mav : List Val) (lo c : ℕ) : ℚ :=
  ((List.range' lo c).map (prevContrib b mav)).sum

/-- The effect of one slope-assignment iteration on a single axis entry. -/
def entryStep (y : ℤ) (cur : Val) (pp : (ℤ × ℚ) × (ℤ × ℚ)) : Val :=
  if pp.1.1 < pp.2.1 ∧ pp.1.1 < y ∧ y ≤ pp.2.1 then some (slopeVal pp.1 pp.2) else cur

/-- The consecutive observation pair `pp` assigns a slope to axis year `y`. -/
def coversP (y : ℤ) (pp : (ℤ × ℚ) × (ℤ × ℚ)) : Prop :=
  pp.1.1 < pp.2.1 ∧ pp.1.1 < y ∧ y ≤ pp.2.1

/-! ### List access helpers -/

theorem getD_set_self {α : Type} (l : List α) (i : ℕ) (v d : α) (h : i < l.length) :
    (l.set i v).getD i d = v := by
  simp [List.getD_eq_getElem?_getD, List.getElem?_set, h]

theorem getD_set_of_ne {α : Type} (l : List α) {i j : ℕ} (v d : α) (h : i ≠ j) :
    (l.set i v).getD j d = l.getD j d := by
  simp [List.getD_eq_getElem?_getD, List.getElem?_set, h]

theorem getD_replicate {α : Type} (n j : ℕ) (a d : α) :
    (List.replicate n a).getD j d = if j < n then a else d := by
  simp only [List.getD_eq_getElem?_getD, List.getElem?_replicate]
  split <;> rfl

theorem getD_drop {α : Type} (l : List α) (m k : ℕ) (d : α) :
    (l.drop m).getD k d = l.getD (m + k) d := by
  simp [List.getD_eq_getElem?_getD, List.getElem?_drop]

theorem getD_take {α : Type} (l : List α) (m k : ℕ) (d : α) :
    (l.take m).getD k d = if k < m then l.getD k d else d := by
  simp only [List.getD_eq_getElem?_getD, List.getElem?_take]
  split <;> rfl

theorem getD_map_isSome (l : List Val) (t : ℕ) :
    (l.map Option.isSome).getD t false = (l.getD t none).isSome := by
  simp only [List.getD_eq_getElem?_getD, List.getElem?_map]
  cases l[t]? <;> rfl

theorem lt_length_of_getD_true (mask : List Bool) (t : ℕ)
    (h : mask.getD t false = true) : t < mask.length := by
  by_contra hc
  rw [List.getD_eq_default _ _ (by omega)] at h
  exact Bool.false_ne_true h

theorem mem_of_getLast?_eq_some {α : Type} :
    ∀ {l : List α} {a : α}, l.getLast? = some a → a ∈ l
  | [], a, h => by simp at h
  | [x], a, h => by
    simp only [List.getLast?_singleton, Option.some.injEq] at h
    simp [h]
  | x :: y :: t, a, h => by
    rw [List.getLast?_cons_cons] at h
    exact List.mem_cons_of_mem x (mem_of_getLast?_eq_some h)

/-! ### Soundness of `runs_true` -/

theorem runsAux_sound (mask : List Bool) :
    ∀ (ks : List ℕ) (start prev : ℕ) (runs : List (ℕ × ℕ)),
      start ≤ prev →
      (∀ t, start ≤ t → t ≤ prev → mask.getD t false = true) →
      (∀ k ∈ ks, mask.getD k false = true) →
      (∀ p ∈ runs, p.1 ≤ p.2 ∧ ∀ t, p.1 ≤ t → t ≤ p.2 → mask.getD t false = true) →
      ∀ p ∈ runsAux ks start prev runs,
        p.1 ≤ p.2 ∧ ∀ t, p.1 ≤ t → t ≤ p.2 → mask.getD t false = true
  | [], start, prev, runs, hsp, hin, _, hruns, p, hp => by
    rw [runsAux, List.mem_append] at hp
    rcases hp with hp | hp
    · exact hruns p hp
    · rcases List.mem_singleton.mp hp with rfl
      exact ⟨hsp, hin⟩
  | k :: ks, start, prev, runs, hsp, hin, hks, hruns, p, hp => by
    rw [runsAux] at hp
    split at hp
    · rename_i hk
      refine runsAux_sound mask ks start k runs (by omega) ?_
        (fun k' hk' => hks k' (List.mem_cons_of_mem _ hk')) hruns p hp
      intro t ht1 ht2
      rcases Nat.lt_or_ge t (prev + 1) with ht | ht
      · exact hin t ht1 (by omega)
      · have heq : t = k := by omega
        exact heq ▸ hks k (List.mem_cons_self _ _)
    · refine runsAux_sound mask ks k k (runs ++ [(start, prev)]) (le_refl k) ?_
        (fun k' hk' => hks k' (List.mem_cons_of_mem _ hk')) ?_ p hp
      · intro t ht1 ht2
        have heq : t = k := by omega
        exact heq ▸ hks k (List.mem_cons_self _ _)
      · intro q hq
        rw [List.mem_append] at hq
        rcases hq with hq | hq
        · exact hruns q hq
        · rcases List.mem_singleton.mp hq with rfl
          exact ⟨hsp, hin⟩

theorem runs_true_sound (mask : List Bool) :
    ∀ p ∈ runs_true mask,
      p.1 ≤ p.2 ∧ ∀ t, p.1 ≤ t → t ≤ p.2 → mask.getD t false = true := by
  intro p hp
  rw [runs_true] at hp
  rcases hf : (List.range mask.length).filter (fun i => mask.getD i false) with _ | ⟨i0, rest⟩
  · rw [hf] at hp; simp at hp
  · rw [hf] at hp
    have hmem : ∀ k ∈ i0 :: rest, mask.getD k false = true := by
      intro k hk
      have : k ∈ (List.range mask.length).filter (fun i => mask.getD i false) := by
        rw [hf]; exact hk
      exact (List.mem_filter.mp this).2
    exact runsAux_sound mask rest i0 i0 [] (le_refl i0)
      (fun t ht1 ht2 => by
        have heq : t = i0 := by omega
        exact heq ▸ hmem i0 (List.mem_cons_self _ _))
      (fun k hk => hmem k (List.mem_cons_of_mem _ hk))
      (by simp) p hp

/-- Properties of the block selected by `runs_true … |>.getLast?`: its bounds
are ordered, it lies inside the mask, and the mask is true throughout it. -/
theorem runs_last_spec (mask : List Bool) (s e : ℕ)
    (h : (runs_true mask).getLast? = some (s, e)) :
    s ≤ e ∧ e < mask.length ∧ ∀ t, s ≤ t → t ≤ e → mask.getD t false = true := by
  have hmem := runs_true_sound mask (s, e) (mem_of_getLast?_eq_some h)
  exact ⟨hmem.1, lt_length_of_getD_true mask e (hmem.2 e hmem.1 (le_refl e)), hmem.2⟩

/-! ### Characterisation of the integration loops -/

theorem psum_zero (b : Bool) (mav : List Val) (lo : ℕ) : psum b mav lo 0 = 0 := rfl

theorem psum_succ_left (b : Bool) (mav : List Val) (lo c : ℕ) :
    psum b mav lo (c + 1) = prevContrib b mav lo + psum b mav (lo + 1) c := by
  rw [psum, List.range'_succ, List.map_cons, List.sum_cons]; rfl

theorem psum_add (b : Bool) (mav : List Val) (lo c1 c2 : ℕ) :
    psum b mav lo (c1 + c2) = psum b mav lo c1 + psum b mav (lo + c1) c2 := by
  have h := List.range'_append lo c1 c2 1
  simp only [one_mul] at h
  rw [psum, Nat.add_comm c1 c2, ← h, List.map_append, List.sum_append]; rfl

theorem amavGoF_cons (mav : List Val) (acc : ℚ) (arr : List Val) (i : ℕ) (is : List ℕ) :
    amavGoF mav acc arr (i :: is) =
      amavGoF mav (acc + prevContrib true mav i)
        (arr.set i (some (acc + prevContrib true mav i))) is := by
  cases h : mav.getD (i - 1) none <;>
    rw [List.getD_eq_getElem?_getD] at h <;> simp [amavGoF, h, prevContrib]

theorem posGoF_cons_none (b : Bool) (mav : List Val) (run : ℚ) (arr : List Val)
    (i : ℕ) (is : List ℕ) (h : mav.getD (i - 1) none = none) :
    posGoF b mav run arr (i :: is) = posGoF b mav run arr is := by
  rw [List.getD_eq_getElem?_getD] at h
  simp [posGoF, h]

theorem posGoF_cons_some (b : Bool) (mav : List Val) (run : ℚ) (arr : List Val)
    (i : ℕ) (is : List ℕ) (v : ℚ) (h : mav.getD (i - 1) none = some v) :
    posGoF b mav run arr (i :: is) =
      posGoF b mav (run + prevContrib b mav i)
        (arr.set i (some (run + prevContrib b mav i))) is := by
  have h' := h
  rw [List.getD_eq_getElem?_getD] at h'
  have hc : prevContrib b mav i = if b then v else max v 0 := by simp [prevContrib, h']
  rw [hc]
  simp [posGoF, h']

theorem amavGo_cons (mav : List Val) (acc : ℚ) (arr : List Val) (i : ℕ) (is : List ℕ) :
    amavGo mav acc arr (i :: is) =
      if i < arr.length then
        amavGo mav (acc + prevContrib true mav i)
          (arr.set i (some (acc + prevContrib true mav i))) is
      else none := by
  cases h : mav.getD (i - 1) none <;>
    rw [List.getD_eq_getElem?_getD] at h <;> simp [amavGo, h, prevContrib]

theorem posGo_cons_none (b : Bool) (mav : List Val) (run : ℚ) (arr : List Val)
    (i : ℕ) (is : List ℕ) (h : mav.getD (i - 1) none = none) :
    posGo b mav run arr (i :: is) = posGo b mav run arr is := by
  rw [List.getD_eq_getElem?_getD] at h
  simp [posGo, h]

theorem posGo_cons_some (b : Bool) (mav : List Val) (run : ℚ) (arr : List Val)
    (i : ℕ) (is : List ℕ) (v : ℚ) (h : mav.getD (i - 1) none = some v) :
    posGo b mav run arr (i :: is) =
      if i < arr.length then
        posGo b mav (run + prevContrib b mav i)
          (arr.set i (some (run + prevContrib b mav i))) is
      else none := by
  have h' := h
  rw [List.getD_eq_getElem?_getD] at h'
  have hc : prevContrib b mav i = if b then v else max v 0 := by simp [prevContrib, h']
  rw [hc]
  simp [posGo, h']

theorem amavGoF_length (mav : List Val) :
    ∀ (is : List ℕ) (acc : ℚ) (arr : List Val), (amavGoF mav acc arr is).length = arr.length
  | [], _, _ => rfl
  | i :: is, acc, arr => by
    rw [amavGoF_cons, amavGoF_length mav is, List.length_set]

/-- Pointwise description of the AMAV loop on consecutive indices
`lo, …, lo+m-1` (all in range): position `j` inside the window receives the
running accumulator `acc + psum true mav lo (j+1-lo)`; other positions keep
their initial content. -/
theorem amavGoF_getD (mav : List Val) :
    ∀ (m lo : ℕ) (acc : ℚ) (arr : List Val), lo + m ≤ arr.length →
      ∀ j, (amavGoF mav acc arr (List.range' lo m)).getD j none =
        if lo ≤ j ∧ j < lo + m then some (acc + psum true mav lo (j + 1 - lo))
        else arr.getD j none
  | 0, lo, acc, arr, _, j => by
    have h0 : ¬ (lo ≤ j ∧ j < lo + 0) := by omega
    rw [List.range'_zero, if_neg h0]
    rfl
  | m + 1, lo, acc, arr, hlen, j => by
    rw [List.range'_succ, amavGoF_cons]
    have hlen' : (lo + 1) + m ≤ (arr.set lo (some (acc + prevContrib true mav lo))).length := by
      rw [List.length_set]; omega
    rw [amavGoF_getD mav m (lo + 1) _ _ hlen' j]
    rcases Nat.lt_trichotomy j lo with hj | hj | hj
    · have h1 : ¬ (lo + 1 ≤ j ∧ j < lo + 1 + m) := by omega
      have h2 : ¬ (lo ≤ j ∧ j < lo + (m + 1)) := by omega
      rw [if_neg h1, if_neg h2, getD_set_of_ne _ _ _ (by omega)]
    · subst hj
      have h1 : ¬ (j + 1 ≤ j ∧ j < j + 1 + m) := by omega
      have h2 : j ≤ j ∧ j < j + (m + 1) := by omega
      rw [if_neg h1, if_pos h2, getD_set_self _ _ _ _ (by omega)]
      have he : j + 1 - j = 1 := by omega
      rw [he]
      have hp : psum true mav j 1 = prevContrib true mav j + psum true mav (j + 1) 0 :=
        psum_succ_left true mav j 0
      rw [hp, psum_zero, add_zero]
    · rcases Nat.lt_or_ge j (lo + 1 + m) with hj2 | hj2
      · have h1 : lo + 1 ≤ j ∧ j < lo + 1 + m := by omega
        have h2 : lo ≤ j ∧ j < lo + (m + 1) := by omega
        rw [if_pos h1, if_pos h2]
        have hsplit : j + 1 - lo = 1 + (j - lo) := by omega
        have hsplit2 : j + 1 - (lo + 1) = j - lo := by omega
        rw [hsplit, hsplit2, psum_add, psum_succ_left, psum_zero, add_zero]
        exact congrArg some (by ring)
      · have h1 : ¬ (lo + 1 ≤ j ∧ j < lo + 1 + m) := by omega
        have h2 : ¬ (lo ≤ j ∧ j < lo + (m + 1)) := by omega
        rw [if_neg h1, if_neg h2, getD_set_of_ne _ _ _ (by omega)]

theorem posGoF_length (b : Bool) (mav : List Val) :
    ∀ (is : List ℕ) (run : ℚ) (arr : List Val), (posGoF b mav run arr is).length = arr.length
  | [], _, _ => rfl
  | i :: is, run, arr => by
    rcases h : mav.getD (i - 1) none with _ | v
    · rw [posGoF_cons_none b mav run arr i is h, posGoF_length b mav is]
    · rw [posGoF_cons_some b mav run arr i is v h, posGoF_length b mav is, List.length_set]

/-- Pointwise description of the AMAV-POS loop: inside the window a position
whose previous-year MAV is defined receives `run + psum b mav lo (j+1-lo)`;
positions with undefined previous-year MAV are skipped. -/
theorem posGoF_getD (b : Bool) (mav : List Val) :
    ∀ (m lo : ℕ) (run : ℚ) (arr : List Val), lo + m ≤ arr.length →
      ∀ j, (posGoF b mav run arr (List.range' lo m)).getD j none =
        if lo ≤ j ∧ j < lo + m then
          (if (mav.getD (j - 1) none).isSome then some (run + psum b mav lo (j + 1 - lo))
           else arr.getD j none)
        else arr.getD j none
  | 0, lo, run, arr, _, j => by
    have h0 : ¬ (lo ≤ j ∧ j < lo + 0) := by omega
    rw [List.range'_zero, if_neg h0]
    rfl
  | m + 1, lo, run, arr, hlen, j => by
    rw [List.range'_succ]
    rcases hml : mav.getD (lo - 1) none with _ | v
    · rw [posGoF_cons_none b mav run arr lo _ hml,
        posGoF_getD b mav m (lo + 1) run arr (by omega) j]
      rcases Nat.lt_trichotomy j lo with hj | hj | hj
      · have h1 : ¬ (lo + 1 ≤ j ∧ j < lo + 1 + m) := by omega
        have h2 : ¬ (lo ≤ j ∧ j < lo + (m + 1)) := by omega
        rw [if_neg h1, if_neg h2]
      · subst hj
        have h1 : ¬ (j + 1 ≤ j ∧ j < j + 1 + m) := by omega
        have h2 : j ≤ j ∧ j < j + (m + 1) := by omega
        rw [if_neg h1, if_pos h2, hml]
        rfl
      · rcases Nat.lt_or_ge j (lo + 1 + m) with hj2 | hj2
        · have h1 : lo + 1 ≤ j ∧ j < lo + 1 + m := by omega
          have h2 : lo ≤ j ∧ j < lo + (m + 1) := by omega
          rw [if_pos h1, if_pos h2]
          rcases hmj : mav.getD (j - 1) none with _ | w
          · rfl
          · simp only [Option.isSome_some, if_pos]
            have hsplit : j + 1 - lo = 1 + (j - lo) := by omega
            have hsplit2 : j + 1 - (lo + 1) = j - lo := by omega
            rw [hsplit, hsplit2, psum_add, psum_succ_left, psum_zero, add_zero]
            have hz : prevContrib b mav lo = 0 := by rw [prevContrib, hml]
            rw [hz, zero_add]
        · have h1 : ¬ (lo + 1 ≤ j ∧ j < lo + 1 + m) := by omega
          have h2 : ¬ (lo ≤ j ∧ j < lo + (m + 1)) := by omega
          rw [if_neg h1, if_neg h2]
    · rw [posGoF_cons_some b mav run arr lo _ v hml]
      have hlen' : (lo + 1) + m ≤ (arr.set lo (some (run + prevContrib b mav lo))).length := by
        rw [List.length_set]; omega
      rw [posGoF_getD b mav m (lo + 1) _ _ hlen' j]
      rcases Nat.lt_trichotomy j lo with hj | hj | hj
      · have h1 : ¬ (lo + 1 ≤ j ∧ j < lo + 1 + m) := by omega
        have h2 : ¬ (lo ≤ j ∧ j < lo + (m + 1)) := by omega
        rw [if_neg h1, if_neg h2, getD_set_of_ne _ _ _ (by omega)]
      · subst hj
        have h1 : ¬ (j + 1 ≤ j ∧ j < j + 1 + m) := by omega
        have h2 : j ≤ j ∧ j < j + (m + 1) := by omega
        rw [if_neg h1, if_pos h2, getD_set_self _ _ _ _ (by omega), hml]
        simp only [Option.isSome_some, if_pos]
        have he : j + 1 - j = 1 := by omega
        rw [he]
        have hp : psum b mav j 1 = prevContrib b mav j + psum b mav (j + 1) 0 :=
          psum_succ_left b mav j 0
        rw [hp, psum_zero, add_zero]
      · rcases Nat.lt_or_ge j (lo + 1 + m) with hj2 | hj2
        · have h1 : lo + 1 ≤ j ∧ j < lo + 1 + m := by omega
          have h2 : lo ≤ j ∧ j < lo + (m + 1) := by omega
          rw [if_pos h1, if_pos h2]
          rcases hmj : mav.getD (j - 1) none with _ | w
          · simp only [Option.isSome_none, Bool.false_eq_true, if_false]
            rw [getD_set_of_ne _ _ _ (by omega)]
          · simp only [Option.isSome_some, if_pos]
            have hsplit : j + 1 - lo = 1 + (j - lo) := by omega
            have hsplit2 : j + 1 - (lo + 1) = j - lo := by omega
            rw [hsplit, hsplit2, psum_add, psum_succ_left, psum_zero, add_zero]
            exact congrArg some (by ring)
        · have h1 : ¬ (lo + 1 ≤ j ∧ j < lo + 1 + m) := by omega
          have h2 : ¬ (lo ≤ j ∧ j < lo + (m + 1)) := by omega
          rw [if_neg h1, if_neg h2, getD_set_of_ne _ _ _ (by omega)]

/-- The bounds-checked AMAV loop agrees with the total one whenever it
completes, and completion implies every written index was in range. -/
theorem amavGo_eq (mav : List Val) :
    ∀ (is : List ℕ) (acc : ℚ) (arr out : List Val),
      amavGo mav acc arr is = some out →
      out = amavGoF mav acc arr is ∧ ∀ i ∈ is, i < arr.length
  | [], acc, arr, out, h => by
    rw [amavGo] at h
    exact ⟨(Option.some_inj.mp h).symm, by simp⟩
  | i :: is, acc, arr, out, h => by
    rw [amavGo_cons] at h
    split at h
    · rename_i hlt
      have hrec := amavGo_eq mav is _ _ _ h
      refine ⟨?_, ?_⟩
      · rw [amavGoF_cons]; exact hrec.1
      · intro k hk
        rcases List.mem_cons.mp hk with rfl | hk
        · exact hlt
        · have hlen := hrec.2 k hk
          rwa [List.length_set] at hlen
    · exact absurd h (by simp)

/-- Same bridge for the bounds-checked AMAV-POS loop. -/
theorem posGo_eq (b : Bool) (mav : List Val) :
    ∀ (is : List ℕ) (run : ℚ) (arr out : List Val),
      posGo b mav run arr is = some out →
      out = posGoF b mav run arr is ∧ ∀ i ∈ is, (mav.getD (i - 1) none).isSome → i < arr.length
  | [], run, arr, out, h => by
    rw [posGo] at h
    exact ⟨(Option.some_inj.mp h).symm, by simp⟩
  | i :: is, run, arr, out, h => by
    rcases hml : mav.getD (i - 1) none with _ | v
    · rw [posGo_cons_none b mav run arr i is hml] at h
      have hrec := posGo_eq b mav is _ _ _ h
      refine ⟨by rw [posGoF_cons_none b mav run arr i is hml]; exact hrec.1, ?_⟩
      intro k hk hks
      rcases List.mem_cons.mp hk with rfl | hk
      · rw [hml] at hks; simp at hks
      · exact hrec.2 k hk hks
    · rw [posGo_cons_some b mav run arr i is v hml] at h
      split at h
      · rename_i hlt
        have hrec := posGo_eq b mav is _ _ _ h
        refine ⟨by rw [posGoF_cons_some b mav run arr i is v hml]; exact hrec.1, ?_⟩
        intro k hk hks
        rcases List.mem_cons.mp hk with rfl | hk
        · exact hlt
        · have hlen := hrec.2 k hk hks
          rwa [List.length_set] at hlen
      · exact absurd h (by simp)

/-! ### Correctness of `nanargmin` (leftmost minimum of the defined values) -/

theorem minDef_none :
    ∀ (l : List Val), minDef l = none → ∀ j, l.getD j none = none
  | [], _, j => by cases j <;> rfl
  | none :: rest, h, j => by
    rw [minDef] at h
    cases j with
    | zero => rfl
    | succ j => rw [List.getD_cons_succ]; exact minDef_none rest h j
  | some x :: rest, h, j => by
    rcases hr : minDef rest with _ | u <;> simp only [minDef, hr] at h <;> simp at h

theorem minDef_le :
    ∀ (l : List Val) (w : ℚ), minDef l = some w →
      ∀ j v, l.getD j none = some v → w ≤ v
  | [], w, h => by simp [minDef] at h
  | none :: rest, w, h => by
    rw [minDef] at h
    intro j v hj
    cases j with
    | zero => simp [List.getD_cons_zero] at hj
    | succ j =>
      rw [List.getD_cons_succ] at hj
      exact minDef_le rest w h j v hj
  | some x :: rest, w, h => by
    intro j v hj
    rcases hr : minDef rest with _ | u
    · simp only [minDef, hr, Option.some.injEq] at h
      subst h
      cases j with
      | zero =>
        rw [List.getD_cons_zero] at hj
        rcases Option.some_inj.mp hj with rfl
        exact le_refl _
      | succ j =>
        rw [List.getD_cons_succ] at hj
        exact absurd hj (by rw [minDef_none rest hr j]; simp)
    · simp only [minDef, hr, Option.some.injEq] at h
      subst h
      cases j with
      | zero =>
        rw [List.getD_cons_zero] at hj
        rcases Option.some_inj.mp hj with rfl
        exact min_le_left _ _
      | succ j =>
        rw [List.getD_cons_succ] at hj
        exact le_trans (min_le_right _ _) (minDef_le rest u hr j v hj)

theorem minDef_attained :
    ∀ (l : List Val) (w : ℚ), minDef l = some w → ∃ j, l.getD j none = some w
  | [], w, h => by simp [minDef] at h
  | none :: rest, w, h => by
    rw [minDef] at h
    rcases minDef_attained rest w h with ⟨j, hj⟩
    exact ⟨j + 1, by rw [List.getD_cons_succ]; exact hj⟩
  | some x :: rest, w, h => by
    rcases hr : minDef rest with _ | u
    · simp only [minDef, hr, Option.some.injEq] at h
      subst h
      exact ⟨0, rfl⟩
    · simp only [minDef, hr, Option.some.injEq] at h
      subst h
      rcases le_total x u with hxu | hxu
      · exact ⟨0, by rw [List.getD_cons_zero, min_eq_left hxu]⟩
      · rcases minDef_attained rest u hr with ⟨j, hj⟩
        exact ⟨j + 1, by rw [List.getD_cons_succ, min_eq_right hxu]; exact hj⟩

/-- `nanargmin` returns the index of the leftmost minimal defined entry:
the index is in range, holds a defined value that is a lower bound of every
defined entry, and every earlier defined entry is strictly larger. -/
theorem nanargmin_spec :
    ∀ (l : List Val) (k0 : ℕ) (v0 : ℚ), l.getD k0 none = some v0 →
      nanargmin l < l.length ∧
      ∃ m, l.getD (nanargmin l) none = some m ∧
        (∀ k v, l.getD k none = some v → m ≤ v) ∧
        (∀ k, k < nanargmin l → ∀ v, l.getD k none = some v → m < v)
  | [], k0, v0, h0 => by
    exact absurd h0 (by cases k0 <;> simp)
  | none :: rest, k0, v0, h0 => by
    have hrest : ∃ k v, rest.getD k none = some v := by
      cases k0 with
      | zero => simp [List.getD_cons_zero] at h0
      | succ k => rw [List.getD_cons_succ] at h0; exact ⟨k, v0, h0⟩
    rcases hrest with ⟨k, v, hk⟩
    rcases nanargmin_spec rest k v hk with ⟨hlt, m, hm, hmin, hleft⟩
    rw [nanargmin]
    refine ⟨by simpa using Nat.succ_lt_succ hlt, m,
      by rw [List.getD_cons_succ]; exact hm, ?_, ?_⟩
    · intro j w hj
      cases j with
      | zero => simp [List.getD_cons_zero] at hj
      | succ j => rw [List.getD_cons_succ] at hj; exact hmin j w hj
    · intro j hjlt w hj
      cases j with
      | zero => simp [List.getD_cons_zero] at hj
      | succ j =>
        rw [List.getD_cons_succ] at hj
        exact hleft j (by omega) w hj
  | some x :: rest, k0, v0, h0 => by
    rcases hr : minDef rest with _ | u
    · simp only [nanargmin, hr]
      refine ⟨by simp, x, List.getD_cons_zero, ?_, by intro j hj; omega⟩
      intro j w hj
      cases j with
      | zero =>
        rw [List.getD_cons_zero] at hj
        rcases Option.some_inj.mp hj with rfl
        exact le_refl _
      | succ j =>
        rw [List.getD_cons_succ] at hj
        exact absurd hj (by rw [minDef_none rest hr j]; simp)
    · rcases minDef_attained rest u hr with ⟨ju, hju⟩
      rcases nanargmin_spec rest ju u hju with ⟨hlt, m, hm, hmin, hleft⟩
      have hmu : m = u := le_antisymm (hmin ju u hju) (minDef_le rest u hr _ m hm)
      subst hmu
      by_cases hux : m < x
      · simp only [nanargmin, hr, if_pos hux]
        refine ⟨by simpa using Nat.succ_lt_succ hlt,
          m, by rw [List.getD_cons_succ]; exact hm, ?_, ?_⟩
        · intro j w hj
          cases j with
          | zero =>
            rw [List.getD_cons_zero] at hj
            rcases Option.some_inj.mp hj with rfl
            exact le_of_lt hux
          | succ j => rw [List.getD_cons_succ] at hj; exact hmin j w hj
        · intro j hjlt w hj
          cases j with
          | zero =>
            rw [List.getD_cons_zero] at hj
            rcases Option.some_inj.mp hj with rfl
            exact hux
          | succ j =>
            rw [List.getD_cons_succ] at hj
            exact hleft j (by omega) w hj
      · simp only [nanargmin, hr, if_neg hux]
        refine ⟨by simp, x, List.getD_cons_zero, ?_, by intro j hj; omega⟩
        intro j w hj
        cases j with
        | zero =>
          rw [List.getD_cons_zero] at hj
          rcases Option.some_inj.mp hj with rfl
          exact le_refl _
        | succ j =>
          rw [List.getD_cons_succ] at hj
          exact le_trans (le_of_not_lt hux) (minDef_le rest m hr j w hj)

/-! ### Shape of the figures-script aggregator -/

theorem figs_mav (M : List (List Val)) :
    (build_summary_mav_amav_figs M).mav = M.map mavRow := by
  simp only [build_summary_mav_amav_figs]
  rcases h : (runs_true ((M.map mavRow).map Option.isSome)).getLast? with _ | ⟨s, e⟩
  · simp only [h]
  · simp only [h]
    split <;> rfl

theorem figs_amav_none (M : List (List Val))
    (h : (runs_true ((M.map mavRow).map Option.isSome)).getLast? = none) :
    (build_summary_mav_amav_figs M).amav = List.replicate M.length none := by
  simp only [build_summary_mav_amav_figs, h]

theorem figs_amav_some (M : List (List Val)) (s e : ℕ)
    (h : (runs_true ((M.map mavRow).map Option.isSome)).getLast? = some (s, e)) :
    (build_summary_mav_amav_figs M).amav =
      amavGoF (M.map mavRow) 0 (List.replicate M.length none)
        (List.range' (s + 1) (min (e + 1) (M.length - 1) + 1 - (s + 1))) := by
  simp only [build_summary_mav_amav_figs, h]
  split <;> rfl

theorem getD_map_mavRow (M : List (List Val)) (j : ℕ) (hj : j < M.length) :
    (M.map mavRow).getD j none = mavRow (M.getD j []) := by
  rw [List.getD_eq_getElem?_getD, List.getElem?_map, List.getElem?_eq_getElem (by simpa using hj),
    List.getD_eq_getElem?_getD, List.getElem?_eq_getElem hj]
  rfl

theorem getD_replicate_none (n j : ℕ) :
    (List.replicate n (none : Val)).getD j none = none := by
  rw [getD_replicate]; split <;> rfl

/-- Pointwise description of the figures-script AMAV column: defined exactly
on the window `(s, min (e+1) (n-1)]`, where it carries the running sums of the
previous-year MAV values starting at block start `s`. -/
theorem figs_amav_getD (M : List (List Val)) (s e : ℕ)
    (h : (runs_true ((M.map mavRow).map Option.isSome)).getLast? = some (s, e)) (j : ℕ) :
    (build_summary_mav_amav_figs M).amav.getD j none =
      if s + 1 ≤ j ∧ j < min (e + 1) (M.length - 1) + 1 then
        some (psum true (M.map mavRow) (s + 1) (j + 1 - (s + 1)))
      else none := by
  rw [figs_amav_some M s e h]
  have hlast := runs_last_spec _ s e h
  have hn : e < M.length := by
    have := hlast.2.1
    simpa using this
  have hse := hlast.1
  have hlen : (s + 1) + (min (e + 1) (M.length - 1) + 1 - (s + 1)) ≤
      (List.replicate M.length (none : Val)).length := by
    rw [List.length_replicate]; omega
  rw [amavGoF_getD _ _ _ _ _ hlen j]
  have harith : (s + 1) + (min (e + 1) (M.length - 1) + 1 - (s + 1)) =
      min (e + 1) (M.length - 1) + 1 := by omega
  rw [harith]
  split
  · rw [zero_add]
  · exact getD_replicate_none _ _

/-- MAV is defined at a position of the last contiguous block. -/
theorem mav_defined_on_block (M : List (List Val)) (s e : ℕ)
    (h : (runs_true ((M.map mavRow).map Option.isSome)).getLast? = some (s, e))
    (i : ℕ) (h1 : s ≤ i) (h2 : i ≤ e) :
    ∃ mval, (M.map mavRow).getD i none = some mval := by
  have hlast := runs_last_spec _ s e h
  have hmask := hlast.2.2 i h1 h2
  rw [getD_map_isSome] at hmask
  exact Option.isSome_iff_exists.mp hmask

/-- The previous-year contribution at `i + 1` equals the MAV value at `i`. -/
theorem prevContrib_succ (mav : List Val) (i : ℕ) (mval : ℚ)
    (h : mav.getD i none = some mval) : prevContrib true mav (i + 1) = mval := by
  have h' := h
  rw [List.getD_eq_getElem?_getD] at h'
  simp [prevContrib, Nat.add_sub_cancel, h']

/-! ### The MAV facts behind C2 -/

theorem mavRow_isSome (row : List Val) :
    (mavRow row).isSome ↔ ∃ o ∈ row, o.isSome := by
  rw [mavRow]
  by_cases h : (row.filterMap id).isEmpty
  · rw [if_pos h]
    rw [List.isEmpty_iff, List.filterMap_eq_nil_iff] at h
    simp only [Option.isSome_none, Bool.false_eq_true, false_iff]
    rintro ⟨o, ho, hos⟩
    have hno : o = none := by simpa using h o ho
    rw [hno] at hos
    simp at hos
  · rw [if_neg h]
    simp only [Option.isSome_some, true_iff]
    rw [List.isEmpty_iff] at h
    have h' : ¬ row.filterMap id = [] := by simpa using h
    rcases List.exists_mem_of_ne_nil _ h' with ⟨v, hv⟩
    rcases List.mem_filterMap.mp hv with ⟨o, ho, hid⟩
    exact ⟨o, ho, by rw [show o = some v from hid]; rfl⟩

theorem mavRow_perm (row row' : List Val) (h : row.Perm row') :
    mavRow row = mavRow row' := by
  have hp : (row.filterMap id).Perm (row'.filterMap id) := h.filterMap id
  rw [mavRow, mavRow]
  by_cases he : (row.filterMap id).isEmpty
  · rw [List.isEmpty_iff] at he
    have he' : row'.filterMap id = [] := ((he ▸ hp).symm).eq_nil
    rw [if_pos (by rw [List.isEmpty_iff]; exact he), if_pos (by rw [List.isEmpty_iff]; exact he')]
  · rw [List.isEmpty_iff] at he
    have he' : ¬ row'.filterMap id = [] := by
      intro hc
      exact he ((hc ▸ hp).eq_nil)
    rw [if_neg (by rw [List.isEmpty_iff]; exact he), if_neg (by rw [List.isEmpty_iff]; exact he'),
      hp.sum_eq, hp.length_eq]

/-- C2: for every aligned studies-by-years slope matrix and every year
position, the aggregate MAV is defined iff at least one study has a defined
slope at that year; when defined it equals the arithmetic mean of exactly the
defined slope values there; and the per-year mean is independent of the order
of the studies. -/
theorem mav_mean_spec (M : List (List Val)) (j : ℕ) (hj : j < M.length) :
    (((build_summary_mav_amav_figs M).mav.getD j none).isSome ↔
      ∃ o ∈ M.getD j [], o.isSome) ∧
    (∀ l : List ℚ, (M.getD j []).filterMap id = l → l ≠ [] →
      (build_summary_mav_amav_figs M).mav.getD j none = some (l.sum / (l.length : ℚ))) ∧
    (∀ row' : List Val, (M.getD j []).Perm row' → mavRow (M.getD j []) = mavRow row') := by
  rw [figs_mav, getD_map_mavRow M j hj]
  refine ⟨mavRow_isSome _, ?_, fun row' hperm => mavRow_perm _ row' hperm⟩
  intro l hl hlne
  simp only [mavRow, hl]
  rw [if_neg (by rw [List.isEmpty_iff]; exact hlne)]

theorem mav_mean_spec_witness :
    (build_summary_mav_amav_figs [[none, some 2, some 4], [none]]).mav.getD 0 none =
      some ((([2, 4] : List ℚ).sum) / ((([2, 4] : List ℚ).length : ℕ) : ℚ)) ∧
    mavRow (([[none, some 2, some 4], [none]] : List (List Val)).getD 0 []) =
      mavRow [some 4, none, some 2] := by
  have h := mav_mean_spec [[none, some 2, some 4], [none]] 0 (by norm_num)
  exact ⟨h.2.1 [2, 4] (by with_unfolding_all rfl) (by simp),
    h.2.2 [some 4, none, some 2] (by decide)⟩

/-- C3: over the figures-script aggregator, AMAV is defined only at positions
in `(last_block_start, last_block_end + 1]`; at consecutive defined positions
the difference `AMAV[i+1] - AMAV[i]` equals the (defined) `MAV[i]`, so the step
is non-decreasing exactly where that MAV value is non-negative; and when MAV
has no defined run, AMAV is undefined everywhere. -/
theorem amav_block_spec (M : List (List Val)) :
    (runs_true ((build_summary_mav_amav_figs M).mav.map Option.isSome) = [] →
      (build_summary_mav_amav_figs M).amav = List.replicate M.length none) ∧
    (∀ s e,
      (runs_true ((build_summary_mav_amav_figs M).mav.map Option.isSome)).getLast? =
        some (s, e) →
      (∀ j, ((build_summary_mav_amav_figs M).amav.getD j none).isSome →
        s + 1 ≤ j ∧ j ≤ e + 1) ∧
      (∀ i a b, (build_summary_mav_amav_figs M).amav.getD i none = some a →
        (build_summary_mav_amav_figs M).amav.getD (i + 1) none = some b →
        ∃ m, (build_summary_mav_amav_figs M).mav.getD i none = some m ∧
          b - a = m ∧ (a ≤ b ↔ 0 ≤ m))) := by
  rw [figs_mav]
  constructor
  · intro hrun
    exact figs_amav_none M (by rw [hrun]; rfl)
  · intro s e hlast
    constructor
    · intro j hdef
      rw [figs_amav_getD M s e hlast j] at hdef
      by_cases hc : s + 1 ≤ j ∧ j < min (e + 1) (M.length - 1) + 1
      · exact ⟨hc.1, by omega⟩
      · rw [if_neg hc] at hdef; simp at hdef
    · intro i a b ha hb
      rw [figs_amav_getD M s e hlast i] at ha
      rw [figs_amav_getD M s e hlast (i + 1)] at hb
      by_cases hci : s + 1 ≤ i ∧ i < min (e + 1) (M.length - 1) + 1
      · by_cases hci1 : s + 1 ≤ i + 1 ∧ i + 1 < min (e + 1) (M.length - 1) + 1
        · rw [if_pos hci] at ha
          rw [if_pos hci1] at hb
          have ha' := Option.some_inj.mp ha
          have hb' := Option.some_inj.mp hb
          rcases mav_defined_on_block M s e hlast i (by omega) (by omega) with ⟨mval, hmval⟩
          have hdiff : b - a = mval := by
            have hc1 : (i + 1) + 1 - (s + 1) = (i + 1 - (s + 1)) + 1 := by omega
            have hadd := psum_add true (M.map mavRow) (s + 1) (i + 1 - (s + 1)) 1
            have hidx : (s + 1) + (i + 1 - (s + 1)) = i + 1 := by omega
            rw [hidx] at hadd
            have hone : psum true (M.map mavRow) (i + 1) 1 = prevContrib true (M.map mavRow) (i + 1) := by
              rw [psum_succ_left, psum_zero, add_zero]
            rw [hone, prevContrib_succ (M.map mavRow) i mval hmval] at hadd
            rw [← ha', ← hb', hc1, hadd]
            ring
          refine ⟨mval, hmval, hdiff, ?_⟩
          constructor <;> intro hba <;> linarith
        · rw [if_neg hci1] at hb; simp at hb
      · rw [if_neg hci] at ha; simp at ha

theorem amav_block_spec_witness :
    ∃ m, (build_summary_mav_amav_figs [[some 1], [some 2], [none]]).mav.getD 1 none = some m ∧
      (3 : ℚ) - 1 = m ∧ ((1 : ℚ) ≤ 3 ↔ 0 ≤ m) :=
  ((amav_block_spec [[some 1], [some 2], [none]]).2 0 1 (by with_unfolding_all rfl)).2 1 1 3
    (by with_unfolding_all rfl) (by with_unfolding_all rfl)

/-! ### Shape of the table-script aggregator (bounds-checked) -/

theorem tbl_some_branch {b : Bool} {M : List (List Val)} {S : Summary} {s e : ℕ}
    (h : build_summary_mav_amav b M = some S)
    (hr : (runs_true ((M.map mavRow).map Option.isSome)).getLast? = some (s, e)) :
    S.mav = M.map mavRow ∧
    amavGo (M.map mavRow) 0 (List.replicate M.length none)
      (List.range' (s + 1) (e + 1 - s)) = some S.amav ∧
    (hasNegWindow EPS (windowOf S.amav (s + 1) (e + 1)) = false → S.amavPos = none) ∧
    (hasNegWindow EPS (windowOf S.amav (s + 1) (e + 1)) = true →
      ∃ P, S.amavPos = some P ∧
        posGo b (M.map mavRow) 0 (List.replicate M.length none)
          (List.range' (max (valleyOf (windowOf S.amav (s + 1) (e + 1)) (s + 1) + 1) (s + 1))
            (e + 1 + 1 - max (valleyOf (windowOf S.amav (s + 1) (e + 1)) (s + 1) + 1) (s + 1)))
          = some P) := by
  simp only [build_summary_mav_amav, hr] at h
  rcases hA : amavGo (M.map mavRow) 0 (List.replicate M.length none)
      (List.range' (s + 1) (e + 1 - s)) with _ | amav
  · rw [hA] at h; simp at h
  · rw [hA] at h
    simp only at h
    by_cases hneg : hasNegWindow EPS (windowOf amav (s + 1) (e + 1)) = true
    · rw [if_pos hneg] at h
      rcases hP : posGo b (M.map mavRow) 0 (List.replicate M.length none)
          (List.range' (max (valleyOf (windowOf amav (s + 1) (e + 1)) (s + 1) + 1) (s + 1))
            (e + 1 + 1 - max (valleyOf (windowOf amav (s + 1) (e + 1)) (s + 1) + 1) (s + 1)))
          with _ | pos
      · rw [hP] at h; simp at h
      · rw [hP] at h
        simp only at h
        rcases Option.some_inj.mp h with rfl
        refine ⟨rfl, rfl, ?_, ?_⟩
        · intro hc; rw [hneg] at hc; exact Bool.noConfusion hc
        · exact fun _ => ⟨pos, rfl, hP⟩
    · rw [if_neg hneg] at h
      rcases Option.some_inj.mp h with rfl
      refine ⟨rfl, rfl, ?_, ?_⟩
      · exact fun _ => rfl
      · exact fun hc => absurd hc hneg

/-- The previous-year contribution with negatives included, as an
`Option.getD`. -/
theorem prevContrib_true_eq (mav : List Val) (t : ℕ) :
    prevContrib true mav (t + 1) = (mav.getD t none).getD 0 := by
  rcases h : mav.getD t none with _ | v
  · rw [List.getD_eq_getElem?_getD] at h
    simp [prevContrib, Nat.add_sub_cancel, h]
  · rw [List.getD_eq_getElem?_getD] at h
    simp [prevContrib, Nat.add_sub_cancel, h]

/-- The running AMAV sums re-indexed to start at the block start itself. -/
theorem psum_shift (mav : List Val) :
    ∀ (c lo : ℕ), psum true mav (lo + 1) c =
      ((List.range' lo c).map (fun t => (mav.getD t none).getD 0)).sum
  | 0, lo => rfl
  | c + 1, lo => by
    rw [psum_succ_left, psum_shift mav c (lo + 1), List.range'_succ, List.map_cons,
      List.sum_cons, prevContrib_true_eq]

/-- C6: at the failing input (a slope matrix whose MAV is defined at the final
axis position, e.g. one study observed in the last two axis years), the
bounds-checked embedding of `build_summary_mav_amav` from
`build_amav_from_supplemental_Table_1.py` aborts on an out-of-range AMAV
write (numpy `IndexError`), while the clamped duplicate in
`make_supplemental_figures.py` completes. -/
theorem amav_write_out_of_bounds :
    build_summary_mav_amav true [[none], [some 1]] = none ∧
    build_summary_mav_amav_figs [[none], [some 1]] =
      ⟨[none, some 1], [none, none], none⟩ := by
  exact ⟨by with_unfolding_all rfl, by with_unfolding_all rfl⟩

/-- C7 counterexample: for the slope matrix `[[1], [2], [NaN]]` the last MAV
block is positions `0..1`, and the computed AMAV at the first defined
position `block_start + 1 = 1` equals `MAV[0] = 1`, not the empty sum `0`
asserted by the claim. -/
theorem amav_lag_cex :
    ¬ ((build_summary_mav_amav true [[some 1], [some 2], [none]]).map
        (fun S => S.amav.getD 1 none) = some (some 0)) := by
  intro hc
  have h1 : (build_summary_mav_amav true [[some 1], [some 2], [none]]).map
      (fun S => S.amav.getD 1 none) = some (some 1) := by with_unfolding_all rfl
  rw [h1] at hc
  exact absurd (Option.some_inj.mp (Option.some_inj.mp hc)) (by norm_num)

/-- C7 (amended): over `build_summary_mav_amav`, the AMAV value at every
defined position `i` lies in the block window `(s, e+1]` and equals the sum
of the MAV values at positions `s` through `i - 1` (all defined); in
particular AMAV at the first defined position `s + 1` equals `MAV[s]`, not
the empty sum. -/
theorem amav_partial_sums (b : Bool) (M : List (List Val)) (S : Summary) (s e : ℕ)
    (h : build_summary_mav_amav b M = some S)
    (hr : (runs_true ((M.map mavRow).map Option.isSome)).getLast? = some (s, e)) :
    ∀ i a, S.amav.getD i none = some a →
      s + 1 ≤ i ∧ i ≤ e + 1 ∧
      (∀ t, s ≤ t → t < i → ((M.map mavRow).getD t none).isSome) ∧
      a = ((List.range' s (i - s)).map (fun t => ((M.map mavRow).getD t none).getD 0)).sum := by
  intro i a ha
  have hbr := tbl_some_branch h hr
  have hse := (runs_last_spec _ s e hr).1
  have hbridge := amavGo_eq (M.map mavRow) _ _ _ _ hbr.2.1
  have hbound : e + 1 < M.length := by
    have hmem : e + 1 ∈ List.range' (s + 1) (e + 1 - s) := by
      rw [List.mem_range'_1]; omega
    have := hbridge.2 (e + 1) hmem
    rwa [List.length_replicate] at this
  have hlen : (s + 1) + (e + 1 - s) ≤ (List.replicate M.length (none : Val)).length := by
    rw [List.length_replicate]; omega
  have hchar := amavGoF_getD (M.map mavRow) (e + 1 - s) (s + 1) 0
    (List.replicate M.length none) hlen i
  rw [← hbridge.1] at hchar
  rw [hchar] at ha
  by_cases hc : s + 1 ≤ i ∧ i < (s + 1) + (e + 1 - s)
  · rw [if_pos hc] at ha
    have ha' := Option.some_inj.mp ha
    refine ⟨hc.1, by omega, ?_, ?_⟩
    · intro t ht1 ht2
      rcases mav_defined_on_block M s e hr t ht1 (by omega) with ⟨mval, hmval⟩
      rw [hmval]; rfl
    · have hcnt : i + 1 - (s + 1) = i - s := by omega
      rw [← ha', hcnt, zero_add, psum_shift]
  · rw [if_neg hc] at ha
    simp at ha

theorem amav_partial_sums_witness :
    (0 : ℕ) + 1 ≤ 2 ∧ 2 ≤ 1 + 1 ∧
    (∀ t, 0 ≤ t → t < 2 →
      ((([[some 1], [some 2], [none]] : List (List Val)).map mavRow).getD t none).isSome) ∧
    (3 : ℚ) = ((List.range' 0 (2 - 0)).map
      (fun t => ((([[some 1], [some 2], [none]] : List (List Val)).map mavRow).getD t none).getD 0)).sum :=
  amav_partial_sums true [[some 1], [some 2], [none]]
    ⟨[some 1, some 2, none], [none, some 1, some 3], none⟩ 0 1
    (by with_unfolding_all rfl) (by with_unfolding_all rfl) 2 3
    (by with_unfolding_all rfl)

/-- C8: code divergence on the tolerance.  At a slope matrix whose only AMAV
value is `-1e-13` (inside `(-EPS, 0)`), `build_amav_from_supplemental_Table_1.py`
(checking `< -EPS`, `EPS = 1e-12`) produces no AMAV-POS — as the claim
requires — while `make_supplemental_figures.py` (checking `< 0` with no
tolerance) does produce one. -/
theorem pos_eps_divergence :
    build_summary_mav_amav true [[some (-(1 / 10 ^ 13))], [none]] =
      some ⟨[some (-(1 / 10 ^ 13)), none], [none, some (-(1 / 10 ^ 13))], none⟩ ∧
    (build_summary_mav_amav_figs [[some (-(1 / 10 ^ 13))], [none]]).amavPos =
      some (List.replicate 2 none) ∧
    ¬ ((-(1 / 10 ^ 13) : ℚ) < -EPS) :=
  ⟨by with_unfolding_all rfl, by with_unfolding_all rfl, by rw [EPS]; norm_num⟩

theorem tbl_none_branch {b : Bool} {M : List (List Val)} {S : Summary}
    (h : build_summary_mav_amav b M = some S)
    (hr : (runs_true ((M.map mavRow).map Option.isSome)).getLast? = none) :
    S.amav = List.replicate M.length none ∧ S.amavPos = none := by
  simp only [build_summary_mav_amav, hr] at h
  rcases Option.some_inj.mp h with rfl
  exact ⟨rfl, rfl⟩

/-- Pointwise description of the table-script AMAV column (given that the
build completed): defined exactly on `(s, e+1]` with the running sums of the
previous-year MAV, and the block end fits the axis. -/
theorem tbl_amav_char {b : Bool} {M : List (List Val)} {S : Summary} {s e : ℕ}
    (h : build_summary_mav_amav b M = some S)
    (hr : (runs_true ((M.map mavRow).map Option.isSome)).getLast? = some (s, e)) :
    e + 1 < M.length ∧ S.amav.length = M.length ∧
    ∀ j, S.amav.getD j none =
      if s + 1 ≤ j ∧ j < e + 2 then
        some (psum true (M.map mavRow) (s + 1) (j + 1 - (s + 1)))
      else none := by
  have hbr := tbl_some_branch h hr
  have hse := (runs_last_spec _ s e hr).1
  have hbridge := amavGo_eq (M.map mavRow) _ _ _ _ hbr.2.1
  have hbound : e + 1 < M.length := by
    have hmem : e + 1 ∈ List.range' (s + 1) (e + 1 - s) := by
      rw [List.mem_range'_1]; omega
    have := hbridge.2 (e + 1) hmem
    rwa [List.length_replicate] at this
  have hlen : (s + 1) + (e + 1 - s) ≤ (List.replicate M.length (none : Val)).length := by
    rw [List.length_replicate]; omega
  refine ⟨hbound, ?_, ?_⟩
  · rw [hbridge.1, amavGoF_length, List.length_replicate]
  · intro j
    have hchar := amavGoF_getD (M.map mavRow) (e + 1 - s) (s + 1) 0
      (List.replicate M.length none) hlen j
    rw [← hbridge.1] at hchar
    rw [hchar]
    have harith : (s + 1) + (e + 1 - s) = e + 2 := by omega
    rw [harith]
    split
    · rw [zero_add]
    · exact getD_replicate_none _ _

theorem prevContrib_false_nonneg (mav : List Val) (t : ℕ) :
    0 ≤ prevContrib false mav t := by
  rcases h : mav.getD (t - 1) none with _ | v <;>
    rw [List.getD_eq_getElem?_getD] at h <;> simp [prevContrib, h]

theorem psum_false_nonneg (mav : List Val) (lo : ℕ) :
    ∀ c, 0 ≤ psum false mav lo c := by
  intro c
  induction c generalizing lo with
  | zero => rw [psum_zero]
  | succ c ih =>
    rw [psum_succ_left]
    have := prevContrib_false_nonneg mav lo
    have := ih (lo + 1)
    linarith

theorem exists_getD_of_any_isSome (w : List Val)
    (h : w.any (fun o => o.isSome) = true) : ∃ k v, w.getD k none = some v := by
  rcases List.any_eq_true.mp h with ⟨o, ho, hos⟩
  rcases List.mem_iff_getElem.mp ho with ⟨k, hk, hko⟩
  rcases Option.isSome_iff_exists.mp hos with ⟨v, rfl⟩
  exact ⟨k, v, by rw [List.getD_eq_getElem?_getD, List.getElem?_eq_getElem hk, hko]; rfl⟩

theorem windowOf_length (amav : List Val) (lo hi : ℕ) :
    (windowOf amav lo hi).length = min (hi + 1 - lo) (amav.length - lo) := by
  rw [windowOf, List.length_take, List.length_drop]

/-- Under a true negativity test the window's `nanargmin` is within the
window, so the valley lies in `[s+1, e+1]`. -/
theorem valley_in_window {S : Summary} {s e n : ℕ}
    (hlen : S.amav.length = n) (hbound : e + 1 < n) (hse : s ≤ e)
    (hneg : hasNegWindow EPS (windowOf S.amav (s + 1) (e + 1)) = true) :
    nanargmin (windowOf S.amav (s + 1) (e + 1)) <
      (windowOf S.amav (s + 1) (e + 1)).length ∧
    (windowOf S.amav (s + 1) (e + 1)).length = e + 1 - s := by
  simp only [hasNegWindow, Bool.and_eq_true] at hneg
  rcases exists_getD_of_any_isSome _ hneg.1 with ⟨k, v, hkv⟩
  have hspec := (nanargmin_spec _ k v hkv).1
  have hwl : (windowOf S.amav (s + 1) (e + 1)).length = e + 1 - s := by
    rw [windowOf_length, hlen]
    omega
  exact ⟨hspec, hwl⟩

theorem psum_false_mono (mav : List Val) (lo c1 c2 : ℕ) (hc : c1 ≤ c2) :
    psum false mav lo c1 ≤ psum false mav lo c2 := by
  have hsplit : c2 = c1 + (c2 - c1) := by omega
  rw [hsplit, psum_add]
  have := psum_false_nonneg mav (lo + c1) (c2 - c1)
  linarith

/-- C9: over `build_summary_mav_amav` with the include-negative switch off
(negative MAV contributions clamped to zero), whenever AMAV-POS is produced
it is monotonically non-decreasing over its defined positions, and every
defined AMAV-POS value (the block-end value included) is non-negative. -/
theorem pos_clamped_monotone (M : List (List Val)) (S : Summary) (P : List Val)
    (h : build_summary_mav_amav false M = some S) (hp : S.amavPos = some P) :
    (∀ i j a b, i ≤ j → P.getD i none = some a → P.getD j none = some b → a ≤ b) ∧
    (∀ i a, P.getD i none = some a → 0 ≤ a) := by
  rcases hgl : (runs_true ((M.map mavRow).map Option.isSome)).getLast? with _ | ⟨s, e⟩
  · have hnb := tbl_none_branch h hgl
    rw [hnb.2] at hp
    exact absurd hp (by simp)
  · have hbr := tbl_some_branch h hgl
    have hchar := tbl_amav_char h hgl
    by_cases hneg : hasNegWindow EPS (windowOf S.amav (s + 1) (e + 1)) = true
    · rcases hbr.2.2.2 hneg with ⟨P', hP', hPgo⟩
      rw [hp] at hP'
      rcases Option.some_inj.mp hP' with rfl
      have hbridge := posGo_eq false (M.map mavRow) _ _ _ _ hPgo
      have hvw := valley_in_window hchar.2.1 hchar.1 (runs_last_spec _ s e hgl).1 hneg
      have hlen : (max (valleyOf (windowOf S.amav (s + 1) (e + 1)) (s + 1) + 1) (s + 1)) +
          (e + 1 + 1 - max (valleyOf (windowOf S.amav (s + 1) (e + 1)) (s + 1) + 1) (s + 1)) ≤
          (List.replicate M.length (none : Val)).length := by
        rw [List.length_replicate]
        have h1 := hchar.1
        have h2 := hvw.1
        have h3 := hvw.2
        simp only [valleyOf]
        omega
      have hP := hbridge.1
      have key : ∀ i a, P.getD i none = some a →
          a = psum false (M.map mavRow)
            (max (valleyOf (windowOf S.amav (s + 1) (e + 1)) (s + 1) + 1) (s + 1))
            (i + 1 - max (valleyOf (windowOf S.amav (s + 1) (e + 1)) (s + 1) + 1) (s + 1)) ∧
          max (valleyOf (windowOf S.amav (s + 1) (e + 1)) (s + 1) + 1) (s + 1) ≤ i := by
        intro i a ha
        rw [hP, posGoF_getD false (M.map mavRow) _ _ 0 _ hlen i] at ha
        by_cases hci : max (valleyOf (windowOf S.amav (s + 1) (e + 1)) (s + 1) + 1) (s + 1) ≤ i ∧
            i < max (valleyOf (windowOf S.amav (s + 1) (e + 1)) (s + 1) + 1) (s + 1) +
              (e + 1 + 1 - max (valleyOf (windowOf S.amav (s + 1) (e + 1)) (s + 1) + 1) (s + 1))
        · rw [if_pos hci] at ha
          by_cases hd : (((M.map mavRow).getD (i - 1) none).isSome : Prop)
          · rw [if_pos hd] at ha
            rcases Option.some_inj.mp ha with rfl
            exact ⟨zero_add _, hci.1⟩
          · rw [if_neg hd, getD_replicate_none] at ha
            exact absurd ha (by simp)
        · rw [if_neg hci] at ha
          exact absurd ha (by simp)
      constructor
      · intro i j a b hij ha hb
        rcases key i a ha with ⟨ha', hia⟩
        rcases key j b hb with ⟨hb', _⟩
        rw [ha', hb']
        exact psum_false_mono _ _ _ _ (by omega)
      · intro i a ha
        rcases key i a ha with ⟨ha', _⟩
        rw [ha']
        exact psum_false_nonneg _ _ _
    · rw [hbr.2.2.1 (by simpa using hneg)] at hp
      exact absurd hp (by simp)

theorem pos_clamped_monotone_witness : (0 : ℚ) ≤ 2 :=
  (pos_clamped_monotone [[some (-1)], [some 2], [none]]
    ⟨[some (-1), some 2, none], [none, some (-1), some 1], some [none, none, some 2]⟩
    [none, none, some 2]
    (by with_unfolding_all rfl) (by with_unfolding_all rfl)).2 2 2
    (by with_unfolding_all rfl)

theorem windowOf_getD (amav : List Val) (lo hi k : ℕ) (hk : k < hi + 1 - lo) :
    (windowOf amav lo hi).getD k none = amav.getD (lo + k) none := by
  rw [windowOf, getD_take, if_pos hk, getD_drop]

/-- C10: over `build_summary_mav_amav` with negatives included (the source
default `INCLUDE_NEG = True`) and the source's fixed `MODE = 'prev'`,
whenever AMAV-POS is produced, the valley is the leftmost minimum of AMAV
within the block window, and the AMAV-POS value at every defined position
`i` (with `valley + 1 ≤ i ≤ last_e + 1`) equals `AMAV[i] - AMAV[valley]`. -/
theorem pos_equals_amav_since_valley (M : List (List Val)) (S : Summary) (P : List Val)
    (s e : ℕ)
    (h : build_summary_mav_amav true M = some S) (hp : S.amavPos = some P)
    (hr : (runs_true ((M.map mavRow).map Option.isSome)).getLast? = some (s, e)) :
    ∃ v, v = valleyOf (windowOf S.amav (s + 1) (e + 1)) (s + 1) ∧
      s + 1 ≤ v ∧ v ≤ e + 1 ∧
      ∃ av, S.amav.getD v none = some av ∧
        (∀ j bv, S.amav.getD j none = some bv → av ≤ bv) ∧
        (∀ j, j < v → ∀ bv, S.amav.getD j none = some bv → av < bv) ∧
        (∀ i a, P.getD i none = some a →
          v + 1 ≤ i ∧ i ≤ e + 1 ∧
          ∃ ai, S.amav.getD i none = some ai ∧ a = ai - av) := by
  have hbr := tbl_some_branch h hr
  have hchar := tbl_amav_char h hr
  have hse := (runs_last_spec _ s e hr).1
  by_cases hneg : hasNegWindow EPS (windowOf S.amav (s + 1) (e + 1)) = true
  swap
  · rw [hbr.2.2.1 (by simpa using hneg)] at hp
    exact absurd hp (by simp)
  rcases hbr.2.2.2 hneg with ⟨P', hP', hPgo⟩
  rw [hp] at hP'
  rcases Option.some_inj.mp hP' with rfl
  have hvw := valley_in_window hchar.2.1 hchar.1 hse hneg
  have hneg' := hneg
  simp only [hasNegWindow, Bool.and_eq_true] at hneg'
  rcases exists_getD_of_any_isSome _ hneg'.1 with ⟨k0, v0, hk0⟩
  rcases nanargmin_spec _ k0 v0 hk0 with ⟨hnalt, wm, hwm, hwmin, hwleft⟩
  have hvo : valleyOf (windowOf S.amav (s + 1) (e + 1)) (s + 1) =
      s + 1 + nanargmin (windowOf S.amav (s + 1) (e + 1)) := rfl
  have hwlen := hvw.2
  have hmem : ∀ j bv, S.amav.getD j none = some bv →
      s + 1 ≤ j ∧ j < e + 2 ∧
      (windowOf S.amav (s + 1) (e + 1)).getD (j - (s + 1)) none = some bv := by
    intro j bv hbv
    have hbv' := hbv
    rw [hchar.2.2 j] at hbv'
    by_cases hc : s + 1 ≤ j ∧ j < e + 2
    · refine ⟨hc.1, hc.2, ?_⟩
      rw [windowOf_getD S.amav (s + 1) (e + 1) (j - (s + 1)) (by omega)]
      have hj' : s + 1 + (j - (s + 1)) = j := by omega
      rw [hj']
      exact hbv
    · rw [if_neg hc] at hbv'
      exact absurd hbv' (by simp)
  have hvamav : S.amav.getD (valleyOf (windowOf S.amav (s + 1) (e + 1)) (s + 1)) none =
      some wm := by
    rw [hvo, ← windowOf_getD S.amav (s + 1) (e + 1)
      (nanargmin (windowOf S.amav (s + 1) (e + 1))) (by omega)]
    exact hwm
  have hvbound1 : s + 1 ≤ valleyOf (windowOf S.amav (s + 1) (e + 1)) (s + 1) := by
    rw [hvo]; omega
  have hvbound2 : valleyOf (windowOf S.amav (s + 1) (e + 1)) (s + 1) ≤ e + 1 := by
    rw [hvo]; omega
  have hwmval : wm = psum true (M.map mavRow) (s + 1)
      (valleyOf (windowOf S.amav (s + 1) (e + 1)) (s + 1) + 1 - (s + 1)) := by
    have hv' := hvamav
    rw [hchar.2.2, if_pos ⟨hvbound1, by omega⟩] at hv'
    exact (Option.some_inj.mp hv').symm
  refine ⟨valleyOf (windowOf S.amav (s + 1) (e + 1)) (s + 1), rfl,
    hvbound1, hvbound2, wm, hvamav, ?_, ?_, ?_⟩
  · intro j bv hbv
    exact hwmin (j - (s + 1)) bv (hmem j bv hbv).2.2
  · intro j hjv bv hbv
    rcases hmem j bv hbv with ⟨hj1, _, hjw⟩
    rw [hvo] at hjv
    exact hwleft (j - (s + 1)) (by omega) bv hjw
  · intro i a ha
    have hsi : max (valleyOf (windowOf S.amav (s + 1) (e + 1)) (s + 1) + 1) (s + 1) =
        valleyOf (windowOf S.amav (s + 1) (e + 1)) (s + 1) + 1 := by
      rw [hvo]; omega
    rw [hsi] at hPgo
    have hbridge := posGo_eq true (M.map mavRow) _ _ _ _ hPgo
    have hplen : (valleyOf (windowOf S.amav (s + 1) (e + 1)) (s + 1) + 1) +
        (e + 1 + 1 - (valleyOf (windowOf S.amav (s + 1) (e + 1)) (s + 1) + 1)) ≤
        (List.replicate M.length (none : Val)).length := by
      rw [List.length_replicate]
      have := hchar.1
      omega
    rw [hbridge.1, posGoF_getD true (M.map mavRow) _ _ 0 _ hplen i] at ha
    by_cases hci : valleyOf (windowOf S.amav (s + 1) (e + 1)) (s + 1) + 1 ≤ i ∧
        i < (valleyOf (windowOf S.amav (s + 1) (e + 1)) (s + 1) + 1) +
          (e + 1 + 1 - (valleyOf (windowOf S.amav (s + 1) (e + 1)) (s + 1) + 1))
    · rw [if_pos hci] at ha
      by_cases hd : ((((M.map mavRow).getD (i - 1) none).isSome : Bool) = true)
      · rw [if_pos hd] at ha
        rcases Option.some_inj.mp ha with rfl
        refine ⟨hci.1, by omega,
          psum true (M.map mavRow) (s + 1) (i + 1 - (s + 1)), ?_, ?_⟩
        · rw [hchar.2.2 i, if_pos ⟨by omega, by omega⟩]
        · rw [zero_add, hwmval]
          have h1 : (valleyOf (windowOf S.amav (s + 1) (e + 1)) (s + 1) + 1 - (s + 1)) +
              (i + 1 - (valleyOf (windowOf S.amav (s + 1) (e + 1)) (s + 1) + 1)) =
              i + 1 - (s + 1) := by omega
          have h2 := psum_add true (M.map mavRow) (s + 1)
            (valleyOf (windowOf S.amav (s + 1) (e + 1)) (s + 1) + 1 - (s + 1))
            (i + 1 - (valleyOf (windowOf S.amav (s + 1) (e + 1)) (s + 1) + 1))
          rw [h1] at h2
          have h3 : (s + 1) + (valleyOf (windowOf S.amav (s + 1) (e + 1)) (s + 1) + 1 - (s + 1)) =
              valleyOf (windowOf S.amav (s + 1) (e + 1)) (s + 1) + 1 := by omega
          rw [h3] at h2
          linarith
      · rw [if_neg hd, getD_replicate_none] at ha
        exact absurd ha (by simp)
    · rw [if_neg hci] at ha
      exact absurd ha (by simp)

theorem pos_equals_amav_since_valley_witness :
    ∃ v, v = valleyOf (windowOf ([none, some (-1), some 1] : List Val) (0 + 1) (1 + 1)) (0 + 1) ∧
      0 + 1 ≤ v ∧ v ≤ 1 + 1 ∧
      ∃ av, ([none, some (-1), some 1] : List Val).getD v none = some av ∧
        (∀ j bv, ([none, some (-1), some 1] : List Val).getD j none = some bv → av ≤ bv) ∧
        (∀ j, j < v → ∀ bv, ([none, some (-1), some 1] : List Val).getD j none = some bv →
          av < bv) ∧
        (∀ i a, ([none, none, some 2] : List Val).getD i none = some a →
          v + 1 ≤ i ∧ i ≤ 1 + 1 ∧
          ∃ ai, ([none, some (-1), some 1] : List Val).getD i none = some ai ∧ a = ai - av) :=
  pos_equals_amav_since_valley [[some (-1)], [some 2], [none]]
    ⟨[some (-1), some 2, none], [none, some (-1), some 1], some [none, none, some 2]⟩
    [none, none, some 2] 0 1
    (by with_unfolding_all rfl) (by with_unfolding_all rfl) (by with_unfolding_all rfl)

/-! ### Model Selector claims -/

/-- C5: fewer than 2 usable points yields `INSUFFICIENT_DATA` with every
numeric metric undefined; exactly 2 points fits only the linear model and
yields `LINEAR_ONLY` with all exponential metrics and both LOOCV RMSEs
undefined; and below 5 points both LOOCV RMSEs are undefined. -/
theorem model_insufficient_spec (o : OlsFit) (years vals : List ℚ) (r : ModelRecord)
    (hres : choose_model_for_disease o years vals = r) :
    (vals.length < 2 →
      r.model = ModelDecision.INSUFFICIENT_DATA ∧ r.aicLin = none ∧ r.aicExp = none ∧
      r.bicLin = none ∧ r.bicExp = none ∧ r.rmseLin = none ∧ r.rmseExp = none) ∧
    (vals.length = 2 →
      r.model = ModelDecision.LINEAR_ONLY ∧
      r.aicLin = some (o.aicLin (center years) vals) ∧
      r.bicLin = some (o.bicLin (center years) vals) ∧
      r.aicExp = none ∧ r.bicExp = none ∧ r.rmseLin = none ∧ r.rmseExp = none) ∧
    (vals.length < 5 → r.rmseLin = none ∧ r.rmseExp = none) := by
  subst hres
  simp only [choose_model_for_disease, MIN_POINTS_LINEAR, MIN_POINTS_EXP, MIN_POINTS_CV,
    loocv_rmse_linear, loocv_rmse_exponential, fit_exponential]
  refine ⟨?_, ?_, ?_⟩
  · intro h2
    rw [if_pos (by omega)]
    exact ⟨rfl, rfl, rfl, rfl, rfl, rfl, rfl⟩
  · intro h2
    rw [if_neg (by omega), if_pos (by omega)]
    exact ⟨rfl, rfl, rfl, rfl, rfl, rfl, rfl⟩
  · intro h5
    by_cases h2 : vals.length < 2
    · rw [if_pos (by omega)]
      exact ⟨rfl, rfl⟩
    · by_cases h3 : vals.length < 3
      · rw [if_neg (by omega), if_pos (by omega)]
        exact ⟨rfl, rfl⟩
      · rw [if_neg (by omega), if_neg (by omega)]
        by_cases hy : vals.any (fun v => decide (v ≤ 0)) = true
        · rw [if_pos hy]
          dsimp only
          rw [if_pos (by omega)]
          exact ⟨rfl, rfl⟩
        · rw [if_neg hy]
          dsimp only
          rw [if_pos (by omega), if_pos (Or.inl (by omega))]
          exact ⟨rfl, rfl⟩

theorem model_insufficient_spec_witness :
    (([1] : List ℚ).length < 2 →
      ModelRecord.model ⟨1, ModelDecision.INSUFFICIENT_DATA, none, none, none, none, none, none⟩ =
        ModelDecision.INSUFFICIENT_DATA ∧
      ModelRecord.aicLin ⟨1, ModelDecision.INSUFFICIENT_DATA, none, none, none, none, none, none⟩ = none ∧
      ModelRecord.aicExp ⟨1, ModelDecision.INSUFFICIENT_DATA, none, none, none, none, none, none⟩ = none ∧
      ModelRecord.bicLin ⟨1, ModelDecision.INSUFFICIENT_DATA, none, none, none, none, none, none⟩ = none ∧
      ModelRecord.bicExp ⟨1, ModelDecision.INSUFFICIENT_DATA, none, none, none, none, none, none⟩ = none ∧
      ModelRecord.rmseLin ⟨1, ModelDecision.INSUFFICIENT_DATA, none, none, none, none, none, none⟩ = none ∧
      ModelRecord.rmseExp ⟨1, ModelDecision.INSUFFICIENT_DATA, none, none, none, none, none, none⟩ = none) ∧
    (([1] : List ℚ).length = 2 →
      ModelRecord.model ⟨1, ModelDecision.INSUFFICIENT_DATA, none, none, none, none, none, none⟩ =
        ModelDecision.LINEAR_ONLY ∧
      ModelRecord.aicLin ⟨1, ModelDecision.INSUFFICIENT_DATA, none, none, none, none, none, none⟩ =
        some (OlsFit.aicLin ⟨fun _ _ => 0, fun _ _ => 0, fun _ _ => 0, fun _ _ => 0,
          fun _ _ => 1, fun _ _ => 1⟩ (center [2000]) [1]) ∧
      ModelRecord.bicLin ⟨1, ModelDecision.INSUFFICIENT_DATA, none, none, none, none, none, none⟩ =
        some (OlsFit.bicLin ⟨fun _ _ => 0, fun _ _ => 0, fun _ _ => 0, fun _ _ => 0,
          fun _ _ => 1, fun _ _ => 1⟩ (center [2000]) [1]) ∧
      ModelRecord.aicExp ⟨1, ModelDecision.INSUFFICIENT_DATA, none, none, none, none, none, none⟩ = none ∧
      ModelRecord.bicExp ⟨1, ModelDecision.INSUFFICIENT_DATA, none, none, none, none, none, none⟩ = none ∧
      ModelRecord.rmseLin ⟨1, ModelDecision.INSUFFICIENT_DATA, none, none, none, none, none, none⟩ = none ∧
      ModelRecord.rmseExp ⟨1, ModelDecision.INSUFFICIENT_DATA, none, none, none, none, none, none⟩ = none) ∧
    (([1] : List ℚ).length < 5 →
      ModelRecord.rmseLin ⟨1, ModelDecision.INSUFFICIENT_DATA, none, none, none, none, none, none⟩ = none ∧
      ModelRecord.rmseExp ⟨1, ModelDecision.INSUFFICIENT_DATA, none, none, none, none, none, none⟩ = none) :=
  model_insufficient_spec
    ⟨fun _ _ => 0, fun _ _ => 0, fun _ _ => 0, fun _ _ => 0, fun _ _ => 1, fun _ _ => 1⟩
    [2000] [1] ⟨1, ModelDecision.INSUFFICIENT_DATA, none, none, none, none, none, none⟩
    (by with_unfolding_all rfl)

/-- C4: for a series of at least 3 usable points whose values are all
strictly positive, the decision is EXPONENTIAL exactly when
`delta_aic ≤ -AIC_MARGIN` and, whenever both LOOCV RMSEs are defined,
additionally the linear RMSE is strictly positive with RMSE quotient at most
`RMSE_FACTOR` (a zero linear RMSE counts as an infinite quotient, never
favouring the exponential); otherwise the decision is LINEAR.  If some value
is non-positive, the decision is LINEAR and every exponential metric is
undefined. -/
theorem model_decision_spec (o : OlsFit) (years vals : List ℚ) (r : ModelRecord)
    (hres : choose_model_for_disease o years vals = r) (h3 : 3 ≤ vals.length) :
    ((∀ v ∈ vals, 0 < v) →
      (r.model = ModelDecision.EXPONENTIAL ∨ r.model = ModelDecision.LINEAR) ∧
      (r.model = ModelDecision.EXPONENTIAL ↔
        (o.aicExp (center years) vals - o.aicLin (center years) vals ≤ -AIC_MARGIN ∧
         ∀ rl re, r.rmseLin = some rl → r.rmseExp = some re →
           0 < rl ∧ re / rl ≤ RMSE_FACTOR))) ∧
    ((∃ v ∈ vals, v ≤ 0) →
      r.model = ModelDecision.LINEAR ∧ r.aicExp = none ∧ r.bicExp = none ∧
      r.rmseExp = none) := by
  subst hres
  simp only [choose_model_for_disease, MIN_POINTS_LINEAR, MIN_POINTS_EXP, MIN_POINTS_CV,
    loocv_rmse_linear, loocv_rmse_exponential, fit_exponential]
  rw [if_neg (by omega), if_neg (by omega)]
  constructor
  · intro hpos
    have hyF : vals.any (fun v => decide (v ≤ 0)) = false := by
      rw [List.any_eq_false]
      intro v hv
      simp only [decide_eq_true_eq]
      exact not_le.mpr (hpos v hv)
    rw [if_neg (by rw [hyF]; exact Bool.false_ne_true)]
    dsimp only
    by_cases hn5 : vals.length < 5
    · rw [if_pos (by omega), if_pos (Or.inl (by omega))]
      dsimp only
      by_cases hd : o.aicExp (center years) vals - o.aicLin (center years) vals ≤ -AIC_MARGIN
      · rw [if_pos hd]
        exact ⟨Or.inl rfl,
          iff_of_true rfl ⟨hd, fun rl re h1 => absurd h1 (by simp)⟩⟩
      · rw [if_neg hd]
        exact ⟨Or.inr rfl, iff_of_false (by decide) (fun hc => hd hc.1)⟩
    · rw [if_neg (by omega),
        if_neg (by
          rintro (hlt | hany)
          · omega
          · rw [hyF] at hany; exact Bool.false_ne_true hany)]
      dsimp only
      by_cases hcond : o.aicExp (center years) vals - o.aicLin (center years) vals ≤
          -AIC_MARGIN ∧ 0 < o.cvLin (center years) vals ∧
          o.cvExp (center years) vals / o.cvLin (center years) vals ≤ RMSE_FACTOR
      · rw [if_pos hcond]
        refine ⟨Or.inl rfl, iff_of_true rfl ⟨hcond.1, ?_⟩⟩
        intro rl re h1 h2
        rcases Option.some_inj.mp h1 with rfl
        rcases Option.some_inj.mp h2 with rfl
        exact ⟨hcond.2.1, hcond.2.2⟩
      · rw [if_neg hcond]
        refine ⟨Or.inr rfl, iff_of_false (by decide) ?_⟩
        intro hc
        have := hc.2 (o.cvLin (center years) vals) (o.cvExp (center years) vals) rfl rfl
        exact hcond ⟨hc.1, this.1, this.2⟩
  · intro hnegv
    have hyT : vals.any (fun v => decide (v ≤ 0)) = true := by
      rw [List.any_eq_true]
      rcases hnegv with ⟨v, hv, hvle⟩
      exact ⟨v, hv, by simp only [decide_eq_true_eq]; exact hvle⟩
    rw [if_pos hyT]
    dsimp only
    exact ⟨rfl, rfl, rfl, rfl⟩

theorem model_decision_spec_witness :
    ((∀ v ∈ ([1, 2, 3] : List ℚ), 0 < v) →
      (ModelRecord.model ⟨3, ModelDecision.EXPONENTIAL, some 0, some (-10), some 0, some 0,
          none, none⟩ = ModelDecision.EXPONENTIAL ∨
        ModelRecord.model ⟨3, ModelDecision.EXPONENTIAL, some 0, some (-10), some 0, some 0,
          none, none⟩ = ModelDecision.LINEAR) ∧
      (ModelRecord.model ⟨3, ModelDecision.EXPONENTIAL, some 0, some (-10), some 0, some 0,
          none, none⟩ = ModelDecision.EXPONENTIAL ↔
        (OlsFit.aicExp ⟨fun _ _ => 0, fun _ _ => 0, fun _ _ => -10, fun _ _ => 0,
            fun _ _ => 1, fun _ _ => 1⟩ (center [1, 2, 3]) [1, 2, 3] -
          OlsFit.aicLin ⟨fun _ _ => 0, fun _ _ => 0, fun _ _ => -10, fun _ _ => 0,
            fun _ _ => 1, fun _ _ => 1⟩ (center [1, 2, 3]) [1, 2, 3] ≤ -AIC_MARGIN ∧
         ∀ rl re,
           ModelRecord.rmseLin ⟨3, ModelDecision.EXPONENTIAL, some 0, some (-10), some 0,
             some 0, none, none⟩ = some rl →
           ModelRecord.rmseExp ⟨3, ModelDecision.EXPONENTIAL, some 0, some (-10), some 0,
             some 0, none, none⟩ = some re →
           0 < rl ∧ re / rl ≤ RMSE_FACTOR))) ∧
    ((∃ v ∈ ([1, 2, 3] : List ℚ), v ≤ 0) →
      ModelRecord.model ⟨3, ModelDecision.EXPONENTIAL, some 0, some (-10), some 0, some 0,
        none, none⟩ = ModelDecision.LINEAR ∧
      ModelRecord.aicExp ⟨3, ModelDecision.EXPONENTIAL, some 0, some (-10), some 0, some 0,
        none, none⟩ = none ∧
      ModelRecord.bicExp ⟨3, ModelDecision.EXPONENTIAL, some 0, some (-10), some 0, some 0,
        none, none⟩ = none ∧
      ModelRecord.rmseExp ⟨3, ModelDecision.EXPONENTIAL, some 0, some (-10), some 0, some 0,
        none, none⟩ = none) :=
  model_decision_spec
    ⟨fun _ _ => 0, fun _ _ => 0, fun _ _ => -10, fun _ _ => 0, fun _ _ => 1, fun _ _ => 1⟩
    [1, 2, 3] [1, 2, 3]
    ⟨3, ModelDecision.EXPONENTIAL, some 0, some (-10), some 0, some 0, none, none⟩
    (by with_unfolding_all rfl) (by norm_num)

/-! ### Pointwise analysis of the slope-assignment fold (C1) -/

theorem slopeStep_length (years : List ℤ) (arr : List Val) (pp : (ℤ × ℚ) × (ℤ × ℚ))
    (h : arr.length = years.length) : (slopeStep years arr pp).length = years.length := by
  rw [slopeStep]
  split
  · rw [List.length_map, List.length_zip, h, min_self]
  · exact h

theorem slopeStep_getD (years : List ℤ) (arr : List Val) (pp : (ℤ × ℚ) × (ℤ × ℚ))
    (h : arr.length = years.length) (j : ℕ) (hj : j < years.length) :
    (slopeStep years arr pp).getD j none = entryStep (years.getD j 0) (arr.getD j none) pp := by
  have hja : j < arr.length := by omega
  have hyg : years.getD j 0 = years[j] := by
    rw [List.getD_eq_getElem?_getD, List.getElem?_eq_getElem hj]; rfl
  have hag : arr.getD j none = arr[j] := by
    rw [List.getD_eq_getElem?_getD, List.getElem?_eq_getElem hja]; rfl
  rw [slopeStep, entryStep, hyg, hag]
  by_cases hg : pp.1.1 < pp.2.1
  · rw [if_pos hg]
    have hjz : j < ((years.zip arr).map
        (fun q => if pp.1.1 < q.1 ∧ q.1 ≤ pp.2.1 then some (slopeVal pp.1 pp.2) else q.2)).length := by
      rw [List.length_map, List.length_zip, h]
      omega
    rw [List.getD_eq_getElem?_getD, List.getElem?_eq_getElem hjz, Option.getD_some,
      List.getElem_map, List.getElem_zip]
    dsimp only
    by_cases hc : pp.1.1 < years[j] ∧ years[j] ≤ pp.2.1
    · rw [if_pos hc, if_pos ⟨hg, hc.1, hc.2⟩]
    · rw [if_neg hc, if_neg (by rintro ⟨_, h1, h2⟩; exact hc ⟨h1, h2⟩)]
  · rw [if_neg hg, if_neg (by rintro ⟨hg', _, _⟩; exact hg hg')]
    exact hag

theorem foldl_slopeStep_getD (years : List ℤ) :
    ∀ (ps : List ((ℤ × ℚ) × (ℤ × ℚ))) (arr : List Val), arr.length = years.length →
      ∀ j, j < years.length →
      (ps.foldl (slopeStep years) arr).getD j none =
        ps.foldl (entryStep (years.getD j 0)) (arr.getD j none)
  | [], arr, _, j, _ => rfl
  | p :: ps, arr, h, j, hj => by
    rw [List.foldl_cons, List.foldl_cons,
      foldl_slopeStep_getD years ps (slopeStep years arr p) (slopeStep_length years arr p h) j hj,
      slopeStep_getD years arr p h j hj]

theorem entry_fold_nocover (y : ℤ) :
    ∀ (ps : List ((ℤ × ℚ) × (ℤ × ℚ))) (cur : Val),
      (∀ pp ∈ ps, ¬ coversP y pp) → ps.foldl (entryStep y) cur = cur
  | [], _, _ => rfl
  | p :: ps, cur, h => by
    rw [List.foldl_cons,
      show entryStep y cur p = cur from
        if_neg (h p (List.mem_cons_self _ _))]
    exact entry_fold_nocover y ps cur (fun q hq => h q (List.mem_cons_of_mem _ hq))

theorem entry_fold_last (y : ℤ) (ps1 ps2 : List ((ℤ × ℚ) × (ℤ × ℚ)))
    (pp : (ℤ × ℚ) × (ℤ × ℚ)) (cur : Val)
    (hc : coversP y pp) (hn : ∀ q ∈ ps2, ¬ coversP y q) :
    ((ps1 ++ pp :: ps2).foldl (entryStep y) cur) = some (slopeVal pp.1 pp.2) := by
  rw [List.foldl_append, List.foldl_cons,
    show entryStep y (ps1.foldl (entryStep y) cur) pp = some (slopeVal pp.1 pp.2) from
      if_pos hc]
  exact entry_fold_nocover y ps2 _ hn

theorem entry_fold_isSome (y : ℤ) :
    ∀ (ps : List ((ℤ × ℚ) × (ℤ × ℚ))) (cur : Val),
      (ps.foldl (entryStep y) cur).isSome = true →
      cur.isSome = true ∨ ∃ pp ∈ ps, coversP y pp
  | [], cur, h => Or.inl h
  | p :: ps, cur, h => by
    rw [List.foldl_cons] at h
    rcases entry_fold_isSome y ps (entryStep y cur p) h with hcur | ⟨pp, hpp, hcov⟩
    · by_cases hcv : coversP y p
      · exact Or.inr ⟨p, List.mem_cons_self _ _, hcv⟩
      · rw [entryStep,
          if_neg (show ¬ (p.1.1 < p.2.1 ∧ p.1.1 < y ∧ y ≤ p.2.1) from hcv)] at hcur
        exact Or.inl hcur
    · exact Or.inr ⟨pp, List.mem_cons_of_mem _ hpp, hcov⟩

theorem pairwise_filterMap_fst :
    ∀ (l : List (ℤ × Val)), l.Pairwise (fun p q => p.1 < q.1) →
      (l.filterMap (fun p => p.2.map (fun v => (p.1, v)))).Pairwise
        (fun a b => a.1 < b.1)
  | [], _ => List.Pairwise.nil
  | p :: l, h => by
    rcases List.pairwise_cons.mp h with ⟨hhead, htail⟩
    rw [List.filterMap_cons]
    rcases hp : p.2 with _ | v
    · exact pairwise_filterMap_fst l htail
    · refine List.Pairwise.cons ?_ (pairwise_filterMap_fst l htail)
      intro b hb
      rcases List.mem_filterMap.mp hb with ⟨q, hq, hfq⟩
      rcases hq2 : q.2 with _ | w
      · rw [hq2] at hfq; exact absurd hfq (by simp)
      · rw [hq2] at hfq
        have hb1 : b.1 = q.1 := by
          rcases Option.some_inj.mp hfq with rfl
          rfl
        rw [hb1]
        exact hhead q hq

theorem obs_pairwise (years : List ℤ) (col : List Val)
    (hs : years.Pairwise (· < ·)) (hl : col.length = years.length) :
    (obsOf years col).Pairwise (fun a b => a.1 < b.1) := by
  rw [obsOf]
  refine pairwise_filterMap_fst _ ?_
  have hmap : (years.zip col).map Prod.fst = years := List.map_fst_zip years col (by omega)
  rw [← hmap] at hs
  exact List.pairwise_map.mp hs

theorem consecPairs_getElem? (l : List (ℤ × ℚ)) (k : ℕ) (a b : ℤ × ℚ)
    (hk : l[k]? = some a) (hk1 : l[k + 1]? = some b) :
    (l.zip l.tail)[k]? = some (a, b) := by
  rcases List.getElem?_eq_some.mp hk with ⟨hklt, hka⟩
  have htail? : l.tail[k]? = some b := by
    rw [← List.drop_one, List.getElem?_drop]
    have hone : 1 + k = k + 1 := by omega
    rw [hone]
    exact hk1
  rcases List.getElem?_eq_some.mp htail? with ⟨htlt, htb⟩
  have htlt' : k < l.length - 1 := by
    have := htlt
    rwa [List.length_tail] at this
  have hzlt : k < (l.zip l.tail).length := by
    rw [List.length_zip, List.length_tail]
    omega
  rw [List.getElem?_eq_getElem hzlt, List.getElem_zip, hka, htb]

/-- Crossing lemma: on a strictly fst-increasing list, a target strictly
above the first fst and at most the last fst is bracketed by some
consecutive pair. -/
theorem crossing :
    ∀ (l : List (ℤ × ℚ)), l.Pairwise (fun a b => a.1 < b.1) →
      ∀ (t : ℤ) (f lst : ℤ × ℚ), l.head? = some f → l.getLast? = some lst →
      f.1 < t → t ≤ lst.1 →
      ∃ k a b, l[k]? = some a ∧ l[k + 1]? = some b ∧ a.1 < t ∧ t ≤ b.1
  | [], _, t, f, lst, hf, _, _, _ => by simp at hf
  | [a], _, t, f, lst, hf, hlst, hft, htl => by
    rw [List.head?_cons] at hf
    rcases Option.some_inj.mp hf with rfl
    rw [List.getLast?_singleton] at hlst
    rcases Option.some_inj.mp hlst with rfl
    exact absurd (lt_of_lt_of_le hft htl) (lt_irrefl _)
  | a :: b :: rest, hp, t, f, lst, hf, hlst, hft, htl => by
    rw [List.head?_cons] at hf
    rcases Option.some_inj.mp hf with rfl
    by_cases htb : t ≤ b.1
    · exact ⟨0, a, b, rfl, by simp, hft, htb⟩
    · have hp' := (List.pairwise_cons.mp hp).2
      rw [List.getLast?_cons_cons] at hlst
      rcases crossing (b :: rest) hp' t b lst (List.head?_cons) hlst (by omega) htl with
        ⟨k, x, y, hx, hy, hxt, hty⟩
      exact ⟨k + 1, x, y, by rw [List.getElem?_cons_succ]; exact hx,
        by rw [List.getElem?_cons_succ]; exact hy, hxt, hty⟩

/-- Consecutive observation pairs are ordered: the right year of an earlier
pair is at most the left year of any later pair. -/
theorem consecPairs_pairwise :
    ∀ (l : List (ℤ × ℚ)), l.Pairwise (fun a b => a.1 < b.1) →
      (l.zip l.tail).Pairwise (fun p q => p.2.1 ≤ q.1.1)
  | [], _ => List.Pairwise.nil
  | [_], _ => List.Pairwise.nil
  | a :: b :: rest, h => by
    rw [List.tail_cons, List.zip_cons_cons]
    have htl := (List.pairwise_cons.mp h).2
    refine List.Pairwise.cons ?_ (consecPairs_pairwise (b :: rest) htl)
    intro q hq
    have hq1 : q.1 ∈ b :: rest := by
      have := List.of_mem_zip (a := q.1) (b := q.2) (by simpa using hq)
      exact this.1
    rcases List.mem_cons.mp hq1 with heq | hmem
    · rw [← heq]
    · exact le_of_lt ((List.pairwise_cons.mp htl).1 _ hmem)

theorem pairwise_head_le (l : List (ℤ × ℚ)) (h : l.Pairwise (fun a b => a.1 < b.1))
    (f : ℤ × ℚ) (hf : l.head? = some f) : ∀ x ∈ l, f.1 ≤ x.1 := by
  rcases l with _ | ⟨o, rest⟩
  · simp at hf
  · rw [List.head?_cons] at hf
    rcases Option.some_inj.mp hf with rfl
    intro x hx
    rcases List.mem_cons.mp hx with rfl | hmem
    · exact le_refl _
    · exact le_of_lt ((List.pairwise_cons.mp h).1 x hmem)

theorem pairwise_le_getLast :
    ∀ (l : List (ℤ × ℚ)), l.Pairwise (fun a b => a.1 < b.1) →
      ∀ lst, l.getLast? = some lst → ∀ x ∈ l, x.1 ≤ lst.1
  | [], _, lst, hlst => by simp at hlst
  | [a], _, lst, hlst => by
    rw [List.getLast?_singleton] at hlst
    rcases Option.some_inj.mp hlst with rfl
    intro x hx
    rcases List.mem_singleton.mp hx with rfl
    exact le_refl _
  | a :: b :: rest, h, lst, hlst => by
    rw [List.getLast?_cons_cons] at hlst
    have htl := (List.pairwise_cons.mp h).2
    have hih := pairwise_le_getLast (b :: rest) htl lst hlst
    intro x hx
    rcases List.mem_cons.mp hx with rfl | hmem
    · exact le_trans (le_of_lt ((List.pairwise_cons.mp h).1 b (List.mem_cons_self _ _)))
        (hih b (List.mem_cons_self _ _))
    · exact hih x hmem

/-- Engine for C1: a consecutive observation pair whose half-open-from-left,
closed-at-right year interval contains the axis year at position `j` forces
the slope value there. -/
theorem slope_covered (years : List ℤ) (col : List Val)
    (hs : years.Pairwise (· < ·)) (hl : col.length = years.length)
    (k : ℕ) (y0 : ℤ) (v0 : ℚ) (y1 : ℤ) (v1 : ℚ)
    (hk : (obsOf years col)[k]? = some (y0, v0))
    (hk1 : (obsOf years col)[k + 1]? = some (y1, v1))
    (j : ℕ) (hj : j < years.length)
    (hy0 : y0 < years.getD j 0) (hy1 : years.getD j 0 ≤ y1) :
    (build_perstudy_linearslope years col).getD j none =
      some ((v1 - v0) / ((y1 : ℚ) - (y0 : ℚ))) := by
  have hpw := obs_pairwise years col hs hl
  rcases List.getElem?_eq_some.mp hk with ⟨hklt, hka⟩
  rcases List.getElem?_eq_some.mp hk1 with ⟨hk1lt, hk1b⟩
  have hguard : y0 < y1 := by
    have := List.pairwise_iff_getElem.mp hpw k (k + 1) hklt hk1lt (by omega)
    rw [hka, hk1b] at this
    exact this
  have hpsk : ((obsOf years col).zip (obsOf years col).tail)[k]? =
      some ((y0, v0), (y1, v1)) := consecPairs_getElem? _ k _ _ hk hk1
  rcases List.getElem?_eq_some.mp hpsk with ⟨hpsklt, hpska⟩
  have hdecomp : (obsOf years col).zip (obsOf years col).tail =
      (((obsOf years col).zip (obsOf years col).tail).take (k + 1)) ++
        (((obsOf years col).zip (obsOf years col).tail).drop (k + 1)) :=
    (List.take_append_drop _ _).symm
  have hmemtake : ((y0, v0), (y1, v1)) ∈
      (((obsOf years col).zip (obsOf years col).tail).take (k + 1)) := by
    refine List.mem_iff_getElem?.mpr ⟨k, ?_⟩
    rw [List.getElem?_take, if_pos (by omega), hpsk]
  have hppw := consecPairs_pairwise (obsOf years col) hpw
  have hnocover : ∀ q ∈ ((obsOf years col).zip (obsOf years col).tail).drop (k + 1),
      ¬ coversP (years.getD j 0) q := by
    intro q hq
    have hrel : y1 ≤ q.1.1 := by
      have hppw' := hppw
      rw [hdecomp, List.pairwise_append] at hppw'
      exact hppw'.2.2 _ hmemtake q hq
    rintro ⟨_, hlt, _⟩
    omega
  have hdecomp2 : (obsOf years col).zip (obsOf years col).tail =
      (((obsOf years col).zip (obsOf years col).tail).take k) ++
        ((y0, v0), (y1, v1)) ::
        (((obsOf years col).zip (obsOf years col).tail).drop (k + 1)) := by
    conv_lhs => rw [← List.take_append_drop k
      ((obsOf years col).zip (obsOf years col).tail)]
    rw [List.drop_eq_getElem_cons hpsklt, hpska]
  rw [build_perstudy_linearslope,
    foldl_slopeStep_getD years _ _ (List.length_replicate _ _) j hj,
    getD_replicate_none, hdecomp2,
    entry_fold_last _ _ _ _ _ ⟨hguard, hy0, hy1⟩ hnocover]
  rfl

/-- C1: for a study on a strictly increasing year axis, (i) fewer than 2
observations produce an entirely undefined slope series; (ii) each
consecutive observation pair `(y0,v0),(y1,v1)` forces the constant slope
`(v1-v0)/(y1-y0)` at every axis year in `(y0, y1]`; (iii) the series is
defined at an axis year exactly when that year lies in
`(firstObservedYear, lastObservedYear]`; and (iv) a pair with equal years
contributes nothing to the assignment fold. -/
theorem slope_series_spec (years : List ℤ) (col : List Val)
    (hs : years.Pairwise (· < ·)) (hl : col.length = years.length) :
    ((obsOf years col).length < 2 →
      build_perstudy_linearslope years col = List.replicate years.length none) ∧
    (∀ k y0 v0 y1 v1, (obsOf years col)[k]? = some (y0, v0) →
      (obsOf years col)[k + 1]? = some (y1, v1) →
      ∀ j, j < years.length → y0 < years.getD j 0 → years.getD j 0 ≤ y1 →
        (build_perstudy_linearslope years col).getD j none =
          some ((v1 - v0) / ((y1 : ℚ) - (y0 : ℚ)))) ∧
    (∀ fy fv ly lv, (obsOf years col).head? = some (fy, fv) →
      (obsOf years col).getLast? = some (ly, lv) →
      ∀ j, j < years.length →
        (((build_perstudy_linearslope years col).getD j none).isSome ↔
          (fy < years.getD j 0 ∧ years.getD j 0 ≤ ly))) ∧
    (∀ arr y0 v0 v1, slopeStep years arr ((y0, v0), (y0, v1)) = arr) := by
  have hpw := obs_pairwise years col hs hl
  refine ⟨?_, ?_, ?_, ?_⟩
  · intro hlen
    rw [build_perstudy_linearslope]
    rcases hobs : obsOf years col with _ | ⟨a, rest⟩
    · rfl
    · rcases rest with _ | ⟨b, rest2⟩
      · rfl
      · rw [hobs] at hlen
        simp only [List.length_cons] at hlen
        omega
  · intro k y0 v0 y1 v1 hk hk1 j hj hy0 hy1
    exact slope_covered years col hs hl k y0 v0 y1 v1 hk hk1 j hj hy0 hy1
  · intro fy fv ly lv hf hlst j hj
    constructor
    · intro hdef
      rw [build_perstudy_linearslope,
        foldl_slopeStep_getD years _ _ (List.length_replicate _ _) j hj,
        getD_replicate_none] at hdef
      rcases entry_fold_isSome _ _ _ hdef with hnone | ⟨pp, hpp, hg, h1, h2⟩
      · simp at hnone
      · have hp1 : pp.1 ∈ obsOf years col := by
          have := List.of_mem_zip (a := pp.1) (b := pp.2) (by simpa using hpp)
          exact this.1
        have hp2 : pp.2 ∈ obsOf years col := by
          have := List.of_mem_zip (a := pp.1) (b := pp.2) (by simpa using hpp)
          exact List.mem_of_mem_tail this.2
        constructor
        · exact lt_of_le_of_lt (pairwise_head_le _ hpw (fy, fv) hf pp.1 hp1) h1
        · exact le_trans h2 (pairwise_le_getLast _ hpw (ly, lv) hlst pp.2 hp2)
    · rintro ⟨hfy, hly⟩
      rcases crossing (obsOf years col) hpw (years.getD j 0) (fy, fv) (ly, lv)
        hf hlst hfy hly with ⟨k, a, b, hka, hkb, hat, htb⟩
      rw [slope_covered years col hs hl k a.1 a.2 b.1 b.2 (by simpa using hka)
        (by simpa using hkb) j hj hat htb]
      rfl
  · intro arr y0 v0 v1
    rw [slopeStep, if_neg (lt_irrefl y0)]

theorem slope_series_spec_witness :
    (build_perstudy_linearslope [2000, 2005, 2010] [some 1, none, some 3]).getD 1 none =
      some (((3 : ℚ) - 1) / (((2010 : ℤ) : ℚ) - ((2000 : ℤ) : ℚ))) ∧
    (((build_perstudy_linearslope [2000, 2005, 2010] [some 1, none, some 3]).getD 0
      none).isSome ↔
      ((2000 : ℤ) < ([2000, 2005, 2010] : List ℤ).getD 0 0 ∧
        ([2000, 2005, 2010] : List ℤ).getD 0 0 ≤ 2010)) := by
  have h := slope_series_spec [2000, 2005, 2010] [some 1, none, some 3]
    (by decide) (by decide)
  exact ⟨h.2.1 0 2000 1 2010 3 (by with_unfolding_all rfl) (by with_unfolding_all rfl) 1
      (by norm_num) (by decide) (by decide),
    h.2.2.1 2000 1 2010 3 (by with_unfolding_all rfl) (by with_unfolding_all rfl) 0
      (by norm_num)⟩

end Amav
